import Mathlib

/-!
# Smart garden backend: record codec, schedule engine and store

A shallow embedding of `src/garden.cpp` (the structs `CareEvent`, `Schedule`,
`Plant`, `Garden` and the helper `add_days`) together with theorems about it.

Conventions of the embedding:

* a `std::string` is a list of characters (`Str`);
* an `int` is an `Int` kept inside the 32-bit range; an arithmetic result that
  leaves the range wraps around (two's complement), see `wrap32`;
* a C++ exception is an `Except Exn _` result;
* a `std::stringstream` is an `IStream`: the unread characters plus the
  `good()` flag, which is what decides whether `std::getline` touches its
  target string;
* the C library time functions used by `add_days` are a parameter (`TimeLib`).
-/

namespace SmartGarden

/-- A `std::string`, as the list of its characters. -/
abbrev Str := List Char

/-- The two exceptions `std::stoi` throws. -/
inductive Exn where
  | invalid_argument
  | out_of_range
deriving DecidableEq

deriving instance DecidableEq for Except

def INT_MIN : Int := -2147483648

def INT_MAX : Int := 2147483647

/-- A value that fits the 32-bit `int` type. -/
def inIntRange (x : Int) : Prop := INT_MIN ≤ x ∧ x ≤ INT_MAX

instance (x : Int) : Decidable (inIntRange x) := by
  unfold inIntRange
  exact inferInstance

/-- Result of 32-bit signed arithmetic: the mathematical value reduced into
`[-2^31, 2^31)` (two's complement wrap-around on overflow). -/
def wrap32 (x : Int) : Int := (x + 2147483648) % 4294967296 - 2147483648

/-! ## Decimal text of integers (`operator<<(int)`, `std::to_string`) -/

/-- The character of a decimal digit value. -/
def digitChar : Nat → Char
  | 0 => '0'
  | 1 => '1'
  | 2 => '2'
  | 3 => '3'
  | 4 => '4'
  | 5 => '5'
  | 6 => '6'
  | 7 => '7'
  | 8 => '8'
  | _ => '9'

/-- Decimal digits of `n`, most significant first; `fuel` bounds the number
of digits produced and `n + 1` is always enough. -/
def natDigits : Nat → Nat → Str
  | 0, _ => []
  | fuel + 1, n =>
    if n < 10 then [digitChar n] else natDigits fuel (n / 10) ++ [digitChar (n % 10)]

/-- Decimal text of a natural number. -/
def natToStr (n : Nat) : Str := natDigits (n + 1) n

/-- Decimal text of an `int`, as written by `operator<<` and
`std::to_string`: a minus sign for negative values, no padding. -/
def intToStr (i : Int) : Str :=
  if i < 0 then '-' :: natToStr i.natAbs else natToStr i.natAbs

/-! ## `std::stoi` -/

/-- The C locale `isspace`. -/
def isSpace (c : Char) : Bool :=
  c = ' ' || c = '\t' || c = '\n' || c = '\x0b' || c = '\x0c' || c = '\r'

/-- A decimal digit character. -/
def isDigit (c : Char) : Bool := '0' ≤ c && c ≤ '9'

/-- Value of a run of decimal digit characters. -/
def digitsVal (ds : Str) : Nat :=
  ds.foldl (fun acc c => acc * 10 + (c.toNat - 48)) 0

/-- `std::stoi(s)` in base 10: leading white space is skipped, an optional
sign is read, then the longest run of digits; whatever follows is ignored.
No digit: `std::invalid_argument`; value outside `int`: `std::out_of_range`. -/
def stoi (s : Str) : Except Exn Int :=
  let s1 := s.dropWhile isSpace
  let body : Bool × Str :=
    match s1 with
    | '-' :: r => (true, r)
    | '+' :: r => (false, r)
    | _ => (false, s1)
  let ds := body.2.takeWhile isDigit
  if ds = [] then .error .invalid_argument
  else
    let v : Int := if body.1 then -(digitsVal ds : Int) else (digitsVal ds : Int)
    if v < INT_MIN ∨ INT_MAX < v then .error .out_of_range else .ok v

/-! ## String streams and `std::getline` -/

/-- A `std::stringstream` being read: the characters not yet extracted and
whether the stream is still `good()` (neither `eofbit` nor `failbit`). -/
structure IStream where
  buf : Str
  good : Bool
deriving DecidableEq

/-- The stream `std::stringstream ss(line)`. -/
def IStream.ofStr (line : Str) : IStream := ⟨line, true⟩

/-- `std::getline(ss, tok, delim)`; `cur` is the value `tok` holds before the
call. On a stream that is no longer good nothing is extracted and `tok` keeps
its value. Otherwise `tok` is cleared and receives the characters up to the
delimiter, which is extracted and dropped; when the end of the buffer is
reached first, `tok` receives what was left and the stream stops being good. -/
def getline (ss : IStream) (cur : Str) (delim : Char) : IStream × Str :=
  if ss.good then
    match ss.buf.span (fun c => c != delim) with
    | (tok, _ :: rest) => (⟨rest, true⟩, tok)
    | (tok, []) => (⟨[], false⟩, tok)
  else (ss, cur)

/-! ## The C library's time functions -/

/-- The fields of `std::tm` that the format `%Y-%m-%d` reads and writes; every
other field is zero (`std::tm tm = {}`). -/
structure Tm where
  tm_year : Int
  tm_mon : Int
  tm_mday : Int
deriving DecidableEq

/-- The library functions `add_days` calls, whose behaviour depends on the C
library and on the time zone of the process: `ss >> std::get_time(&tm,
"%Y-%m-%d")` (`none` when the extraction fails), `std::mktime`,
`std::localtime` and `std::strftime(.., "%Y-%m-%d", ..)`. -/
structure TimeLib where
  get_time : Str → Option Tm
  mktime : Tm → Int
  localtime : Int → Tm
  strftime : Tm → Str

/-- Result of 64-bit signed arithmetic (`std::time_t`). -/
def wrap64 (x : Int) : Int :=
  (x + 9223372036854775808) % 18446744073709551616 - 9223372036854775808

/-- The text `add_days` returns for a date it cannot parse. -/
def INVALID_DATE : Str := ['i','n','v','a','l','i','d','-','d','a','t','e']

/-- `add_days(ymd, days)`: parse, convert to seconds, add `days * 24 * 3600`
(computed in `int`), convert back and format. -/
def add_days (L : TimeLib) (ymd : Str) (days : Int) : Str :=
  match L.get_time ymd with
  | none => INVALID_DATE
  | some tm =>
    let t := L.mktime tm
    let t := wrap64 (t + wrap32 (wrap32 (days * 24) * 3600))
    L.strftime (L.localtime t)

/-! ## CareEvent -/

/-- One historical care action. -/
structure CareEvent where
  type : Str
  date : Str
  notes : Str
deriving DecidableEq

/-- The tag that opens an event line. -/
def EVENT_TAG : Str := ['E','V','E','N','T','|']

/-- The tag that opens a plant line. -/
def PLANT_TAG : Str := ['P','L','A','N','T','|']

/-- `CareEvent::serialize`. -/
def CareEvent.serialize (e : CareEvent) : Str :=
  EVENT_TAG ++ e.type ++ ['|'] ++ e.date ++ ['|'] ++ e.notes

/-- `CareEvent::deserialize`: four `getline` calls on a stream over the line,
the first three up to `'|'`, the last up to a line feed. The three members
start out empty (`CareEvent e;`). -/
def CareEvent.deserialize (line : Str) : CareEvent :=
  let ss := IStream.ofStr line
  let (ss, _) := getline ss [] '|'
  let (ss, type) := getline ss [] '|'
  let (ss, date) := getline ss [] '|'
  let (_, notes) := getline ss [] '\n'
  ⟨type, date, notes⟩

/-! ## Schedule -/

/-- A recurrence policy. -/
structure Schedule where
  interval_days : Int
deriving DecidableEq

/-- The text returned for a schedule without automatic due date. -/
def MANUAL_CARE : Str := ['M','a','n','u','a','l',' ','C','a','r','e']

/-- The text returned when no matching event is on record. -/
def DUE_NOW : Str := ['d','u','e',' ','n','o','w']

/-- The backward scan of `computeNext`, over the history from its last
element to its first: the date of the first event met whose type is `type`,
and the initial value `""` of `last_date` when there is none. -/
def scanLast ( type : Str) : List CareEvent → Str
  | [] => []
  | e :: older => if e.type = type then e.date else scanLast type older

/-- The care type passed for the watering schedule. -/
def WATER : Str := ['w','a','t','e','r']

/-- The care type passed for the fertilizer schedule. -/
def FERTILIZE : Str := ['f','e','r','t','i','l','i','z','e']

/-- `Schedule::computeNext`. -/
def Schedule.computeNext (L : TimeLib) (s : Schedule) (history : List CareEvent)
    ( type : Str) : Str :=
  if s.interval_days ≤ 0 then MANUAL_CARE
  else
    let last_date := scanLast type history.reverse
    if last_date = [] then DUE_NOW
    else add_days L last_date s.interval_days

/-- `Schedule::serialize`. -/
def Schedule.serialize (s : Schedule) : Str := intToStr s.interval_days

/-- `Schedule::deserialize`: `std::stoi`, and 0 when it throws. -/
def Schedule.deserialize (s : Str) : Schedule :=
  match stoi s with
  | .ok v => ⟨v⟩
  | .error _ => ⟨0⟩

/-! ## Plant -/

/-- The aggregate root. -/
structure Plant where
  id : Int
  name : Str
  species : Str
  planted : Str
  pot_size_cm : Int
  sunlight : Str
  watering : Schedule
  fertilizer : Schedule
  history : List CareEvent
deriving DecidableEq

/-- `Plant::serialize`: the header line only. -/
def Plant.serialize (p : Plant) : Str :=
  PLANT_TAG ++ intToStr p.id ++ ['|'] ++ p.name ++ ['|'] ++ p.species ++ ['|']
    ++ p.planted ++ ['|'] ++ intToStr p.pot_size_cm ++ ['|'] ++ p.sunlight ++ ['|']
    ++ p.watering.serialize ++ ['|'] ++ p.fertilizer.serialize

/-- Does the line start with `"EVENT|"` (`line.find("EVENT|") == 0`)? -/
def isEventLine (line : Str) : Bool := EVENT_TAG.isPrefixOf line

/-- Does the line start with `"PLANT|"` (`line.find("PLANT|") == 0`)? -/
def isPlantLine (line : Str) : Bool := PLANT_TAG.isPrefixOf line

/-- The loop at the end of `Plant::deserialize`. Its index stays 0: while the
first of the following lines is an event line it is decoded, appended to the
history and erased from the front. Returns the history and what is left of
`followingLines`. -/
def consumeEvents : List Str → List CareEvent → List CareEvent × List Str
  | [], history => (history, [])
  | l :: ls, history =>
    if isEventLine l then consumeEvents ls (history ++ [CareEvent.deserialize l])
    else (history, l :: ls)

/-- `Plant::deserialize(line, followingLines)`: the decoded plant together
with the new content of `followingLines`. The two `std::stoi` calls for the
id and the pot size are not guarded, so their exception leaves the function;
the two schedule fields go through `Schedule::deserialize`. The variable
`token` is shared by the reads that use it. -/
def Plant.deserialize (line : Str) (followingLines : List Str) :
    Except Exn (Plant × List Str) :=
  let ss := IStream.ofStr line
  let (ss, token) := getline ss [] '|'
  let (ss, token) := getline ss token '|'
  match stoi token with
  | .error e => .error e
  | .ok id =>
    let (ss, name) := getline ss [] '|'
    let (ss, species) := getline ss [] '|'
    let (ss, planted) := getline ss [] '|'
    let (ss, token) := getline ss token '|'
    match stoi token with
    | .error e => .error e
    | .ok pot_size_cm =>
      let (ss, sunlight) := getline ss [] '|'
      let (ss, token) := getline ss token '|'
      let watering := Schedule.deserialize token
      let (_, token) := getline ss token '|'
      let fertilizer := Schedule.deserialize token
      let (history, rest) := consumeEvents followingLines []
      .ok (⟨id, name, species, planted, pot_size_cm, sunlight, watering, fertilizer,
        history⟩, rest)

/-! ## Representable values -/

/-- The fields that make a plant representable: every `int` member is in the
`int` range. -/
def Plant.intsInRange (p : Plant) : Prop :=
  inIntRange p.id ∧ inIntRange p.pot_size_cm ∧ inIntRange p.watering.interval_days ∧
    inIntRange p.fertilizer.interval_days

instance (p : Plant) : Decidable p.intsInRange := by
  unfold Plant.intsInRange
  exact inferInstance

/-- The events a line can carry: no `'|'` in type and date, no line feed in
the notes. -/
def CareEvent.encodable (e : CareEvent) : Prop :=
  '|' ∉ e.type ∧ '|' ∉ e.date ∧ '\n' ∉ e.notes

instance (e : CareEvent) : Decidable e.encodable := by
  unfold CareEvent.encodable
  exact inferInstance

/-! ## Garden -/

/-- The manager of the plants: `plants` and the id counter. -/
structure Garden where
  plants : List Plant
  next_id : Int
deriving DecidableEq

/-- A newly constructed `Garden`: no plant, `next_id = 1`. -/
def Garden.fresh : Garden := ⟨[], 1⟩

/-- `Garden::addPlant`: the returned id and the garden after the call. -/
def Garden.addPlant (g : Garden) (p : Plant) : Int × Garden :=
  let q : Plant := { p with id := g.next_id }
  (q.id, ⟨g.plants ++ [q], wrap32 (g.next_id + 1)⟩)

/-- A run of `addPlant` calls, one per argument plant, in order. -/
def Garden.addAll (g : Garden) : List Plant → Garden
  | [] => g
  | p :: ps => Garden.addAll (g.addPlant p).2 ps

/-- The inner loop of `saveToFile`: every event's line and a line feed. -/
def writeEvents : List CareEvent → Str
  | [] => []
  | e :: es => e.serialize ++ ['\n'] ++ writeEvents es

/-- The outer loop of `saveToFile`: for every plant its header line, a line
feed, and its events. -/
def writePlants : List Plant → Str
  | [] => []
  | p :: ps => p.serialize ++ ['\n'] ++ writeEvents p.history ++ writePlants ps

/-- `Garden::saveToFile`, for a file that could be opened: the characters
written to it. -/
def Garden.saveToFile (g : Garden) : Str := writePlants g.plants

/-- The first statement of the reading loop: one trailing carriage return is
removed. -/
def stripCR (line : Str) : Str :=
  if line ≠ [] ∧ line.getLast? = some '\r' then line.dropLast else line

/-- The body of the reading loop: strip, then keep the line unless empty. -/
def pushLine (lines : List Str) (line : Str) : List Str :=
  let line := stripCR line
  if line ≠ [] then lines ++ [line] else lines

/-- The loop `while (std::getline(f, line))` of `loadFromFile`, character by
character: `cur` holds the characters of the line being extracted and `lines`
the vector built so far. A line feed ends the current line; at the end of the
file a last line without line feed is delivered when it has a character. -/
def readLines : Str → Str → List Str → List Str
  | [], cur, lines => if cur = [] then lines else pushLine lines cur
  | c :: cs, cur, lines =>
    if c = '\n' then readLines cs [] (pushLine lines cur)
    else readLines cs (cur ++ [c]) lines

/-- The statement `lines.erase(lines.begin() + pos)` executed `k` times. -/
def eraseTimes : Nat → Nat → List Str → List Str
  | 0, _, lines => lines
  | k + 1, pos, lines => eraseTimes k pos (lines.eraseIdx pos)

/-- The `while (i < lines.size())` loop of `loadFromFile`, on the state
`lines`, `i`, `plants`, `next_id`. Every turn advances `i` and never makes
`lines` longer, so `lines.size() - i` turns are enough; `none` stands for
running out of `fuel`. An exception thrown by `Plant::deserialize` leaves the
loop. -/
def loadLoop : Nat → List Str → Nat → Garden → Option (Except Exn Garden)
  | 0, lines, i, g => if i < lines.length then none else some (.ok g)
  | fuel + 1, lines, i, g =>
    if h : i < lines.length then
      if isPlantLine lines[i] then
        let rest := lines.drop (i + 1)
        match Plant.deserialize lines[i] rest with
        | .error e => some (.error e)
        | .ok (p, rest) =>
          let consumed := lines.length - (i + 1) - rest.length
          let lines := eraseTimes consumed (i + 1) lines
          let next_id := if p.id ≥ g.next_id then wrap32 (p.id + 1) else g.next_id
          loadLoop fuel lines (i + 1) ⟨g.plants ++ [p], next_id⟩
      else loadLoop fuel lines (i + 1) g
    else some (.ok g)

/-- `Garden::loadFromFile`, for a file that could be opened and holds
`content`: the garden after the call, or the exception that left it. The
previous plants and counter are discarded before the loop. -/
def Garden.loadFromFile (_g : Garden) (content : Str) : Option (Except Exn Garden) :=
  let lines := readLines content [] []
  loadLoop lines.length lines 0 ⟨[], 1⟩

/-! ## Files made of records -/

/-- The loop of `loadFromFile` as a recursion on the lines from index `i` on.
The lines before `i` are never read again, and the event lines that the loop
erases after a plant line are exactly the lines this recursion steps over
without effect, since an event line is not a plant line (`loadLoop_eq`). -/
def loadFrom : List Str → Garden → Except Exn Garden
  | [], g => .ok g
  | l :: rest, g =>
    if isPlantLine l then
      match Plant.deserialize l rest with
      | .error e => .error e
      | .ok (p, _) =>
        loadFrom rest ⟨g.plants ++ [p],
          if p.id ≥ g.next_id then wrap32 (p.id + 1) else g.next_id⟩
    else loadFrom rest g

/-- The text of a file whose lines are `ls`, each ended by a line feed. -/
def joinLines : List Str → Str
  | [] => []
  | l :: ls => l ++ '\n' :: joinLines ls

/-- A record of a file: a plant header line and the event lines after it. -/
structure Record where
  header : Str
  events : List Str
deriving DecidableEq

/-- The lines of a sequence of records, in file order. -/
def recordLines : List Record → List Str
  | [] => []
  | r :: rs => r.header :: (r.events ++ recordLines rs)

/-- The file made of the records, one line per header and per event. -/
def fileOf (records : List Record) : Str := joinLines (recordLines records)

/-- Does `Plant::deserialize` return on this header line (no exception)? -/
def headerDecodes (line : Str) : Bool :=
  match Plant.deserialize line [] with
  | .ok _ => true
  | .error _ => false

/-- The plant `Plant::deserialize` returns for a header line with no
following line; only meant for lines with `headerDecodes`. -/
def headerPlant (line : Str) : Plant :=
  match Plant.deserialize line [] with
  | .ok (p, _) => p
  | .error _ => ⟨0, [], [], [], 0, [], ⟨0⟩, ⟨0⟩, []⟩

/-- A record as the file format means it: lines without line feed; the
header, less a trailing carriage return, starts with `"PLANT|"` and decodes;
every event line, less a trailing carriage return, starts with `"EVENT|"`. -/
def Record.wellFormed (r : Record) : Prop :=
  '\n' ∉ r.header ∧ isPlantLine (stripCR r.header) = true ∧
    headerDecodes (stripCR r.header) = true ∧
    ∀ e ∈ r.events, '\n' ∉ e ∧ isEventLine (stripCR e) = true

instance (r : Record) : Decidable r.wellFormed := by
  unfold Record.wellFormed
  exact inferInstance

/-- The plant a record stands for: the decode of its header, with the decodes
of its own event lines, in order, as history. -/
def Record.decode (r : Record) : Plant :=
  { headerPlant (stripCR r.header) with
    history := r.events.map (fun l => CareEvent.deserialize (stripCR l)) }

/-- The record `saveToFile` writes for a plant: its header line and one line
per event of its history. -/
def Plant.record (p : Plant) : Record := ⟨p.serialize, p.history.map CareEvent.serialize⟩

/-- A text field that holds no `'|'`, no line feed and no carriage return. -/
def cleanText (s : Str) : Prop := '|' ∉ s ∧ '\n' ∉ s ∧ '\r' ∉ s

instance (s : Str) : Decidable (cleanText s) := by
  unfold cleanText
  exact inferInstance

/-- A plant all of whose text fields, and those of its events, are clean. -/
def Plant.cleanTexts (p : Plant) : Prop :=
  cleanText p.name ∧ cleanText p.species ∧ cleanText p.planted ∧ cleanText p.sunlight ∧
    ∀ e ∈ p.history, cleanText e.type ∧ cleanText e.date ∧ cleanText e.notes

instance (p : Plant) : Decidable p.cleanTexts := by
  unfold Plant.cleanTexts
  exact inferInstance

/-! ## A reference time library: UTC, proleptic Gregorian -/

/-- A number read by `std::get_time`: up to `n` decimal digits at the front of
`s`, at least one; their value and the rest of `s`. -/
def readDigits (n : Nat) (s : Str) : Option (Nat × Str) :=
  let ds := (s.take n).takeWhile isDigit
  if ds = [] then none else some (digitsVal ds, s.drop ds.length)

/-- The extraction `ss >> std::get_time(&tm, "%Y-%m-%d")`: leading white
space is skipped, then a year of one to four digits, `'-'`, a month of one or
two digits in 1..12, `'-'`, a day of one or two digits in 1..31; what follows
the day is not read. -/
def utcGetTime (s : Str) : Option Tm :=
  match readDigits 4 (s.dropWhile isSpace) with
  | some (y, '-' :: r1) =>
    match readDigits 2 r1 with
    | some (m, '-' :: r2) =>
      match readDigits 2 r2 with
      | some (d, _) =>
        if 1 ≤ m ∧ m ≤ 12 ∧ 1 ≤ d ∧ d ≤ 31 then some ⟨(y : Int) - 1900, (m : Int) - 1, d⟩
        else none
      | none => none
    | _ => none
  | _ => none

/-- Days from 1970-01-01 to the civil date `y`-`m`-`d`. -/
def daysFromCivil (y m d : Int) : Int :=
  let y := if m ≤ 2 then y - 1 else y
  let era := y / 400
  let yoe := y - era * 400
  let doy := (153 * (if m > 2 then m - 3 else m + 9) + 2) / 5 + d - 1
  let doe := yoe * 365 + yoe / 4 - yoe / 100 + doy
  era * 146097 + doe - 719468

/-- The civil date `z` days after 1970-01-01, as a `Tm`. -/
def civilFromDays (z : Int) : Tm :=
  let z := z + 719468
  let era := z / 146097
  let doe := z - era * 146097
  let yoe := (doe - doe / 1460 + doe / 36524 - doe / 146096) / 365
  let doy := doe - (365 * yoe + yoe / 4 - yoe / 100)
  let mp := (5 * doy + 2) / 153
  let d := doy - (153 * mp + 2) / 5 + 1
  let m := if mp < 10 then mp + 3 else mp - 9
  let y := yoe + era * 400 + (if m ≤ 2 then 1 else 0)
  ⟨y - 1900, m - 1, d⟩

/-- Decimal text of `n`, padded with zeros on the left to `width` characters. -/
def padNat (width n : Nat) : Str :=
  List.replicate (width - (natToStr n).length) '0' ++ natToStr n

/-- The pieces of a formatted text that fit, in order, into `room`
characters: the first piece that does not fit ends the text. -/
def fitPieces : Nat → List Str → Str
  | _, [] => []
  | room, piece :: pieces =>
    if piece.length ≤ room then piece ++ fitPieces (room - piece.length) pieces else []

/-- The call `std::strftime(buf, sizeof(buf), "%Y-%m-%d", tm2)` with `char
buf[11]`, read back as a string: the year without padding, the month and the
day on two digits, as far as the pieces fit into the ten characters the
buffer has room for. -/
def utcStrftime (tm : Tm) : Str :=
  fitPieces 10 [intToStr (tm.tm_year + 1900), ['-'], padNat 2 (tm.tm_mon + 1).natAbs, ['-'],
    padNat 2 tm.tm_mday.natAbs]

/-- A time library for a process in the UTC zone (no daylight saving, no
change of offset). -/
def utcLib : TimeLib where
  get_time := utcGetTime
  mktime := fun tm => daysFromCivil (tm.tm_year + 1900) (tm.tm_mon + 1) tm.tm_mday * 86400
  localtime := fun t => civilFromDays (t / 86400)
  strftime := utcStrftime

/-- The lines the reading loop of `loadFromFile` keeps from the lines of a
file: each loses one trailing carriage return, and the lines then empty are
dropped. -/
def keptLines (ls : List Str) : List Str :=
  (ls.map stripCR).filter (fun l => decide (l ≠ []))

/-- `Decorated ls ls'`: the lines `ls'` are the lines `ls`, in order, with
empty lines and lines holding only a carriage return inserted at any
positions, and with one carriage return appended to any of the lines that do
not already end in one. -/
inductive Decorated : List Str → List Str → Prop where
  | done : Decorated [] []
  | keep (l : Str) {ls ls' : List Str} : Decorated ls ls' → Decorated (l :: ls) (l :: ls')
  | addCR (l : Str) {ls ls' : List Str} : l.getLast? ≠ some '\r' → Decorated ls ls' →
      Decorated (l :: ls) ((l ++ ['\r']) :: ls')
  | blank {ls ls' : List Str} : Decorated ls ls' → Decorated ls ([] :: ls')
  | crOnly {ls ls' : List Str} : Decorated ls ls' → Decorated ls (['\r'] :: ls')

/-- The successive updates of `next_id` in the loop of `loadFromFile`, for the
plants pushed in order, from the value `n`. -/
def bumpNext (n : Int) : List Plant → Int
  | [] => n
  | p :: ps => bumpNext (if p.id ≥ n then wrap32 (p.id + 1) else n) ps

/-! ## Appending to a history, and reachable gardens -/

/-- The scan of `Garden::findPlant`: the position of the first plant whose id
is `id`, `none` standing for the null pointer. -/
def findPlantIdx (id : Int) : List Plant → Option Nat
  | [] => none
  | p :: ps => if p.id = id then some 0 else (findPlantIdx id ps).map (fun i => i + 1)

/-- `Garden::findPlant`: where the returned pointer points, if anywhere. -/
def Garden.findPlant (g : Garden) (id : Int) : Option Nat := findPlantIdx id g.plants

/-- The statement `p->history.push_back(e)` for the plant at position `i`. -/
def pushHistoryAt : Nat → CareEvent → List Plant → List Plant
  | _, _, [] => []
  | 0, e, p :: ps => { p with history := p.history ++ [e] } :: ps
  | i + 1, e, p :: ps => p :: pushHistoryAt i e ps

/-- The history-append operation of `main` (action `log`): the event is
appended to the plant `findPlant` returns, and nothing happens when it
returns the null pointer. -/
def Garden.logEvent (g : Garden) (id : Int) (e : CareEvent) : Garden :=
  match g.findPlant id with
  | none => g
  | some i => ⟨pushHistoryAt i e g.plants, g.next_id⟩

/-- The gardens reachable from the fresh one by `loadFromFile` on any file
content that loads successfully, `addPlant` and history-append. -/
inductive Reachable : Garden → Prop where
  | fresh : Reachable Garden.fresh
  | load (g : Garden) (content : Str) (g1 : Garden) :
      Reachable g → g.loadFromFile content = some (.ok g1) → Reachable g1
  | add (g : Garden) (p : Plant) : Reachable g → Reachable (g.addPlant p).2
  | log (g : Garden) (id : Int) (e : CareEvent) : Reachable g → Reachable (g.logEvent id e)

/-- The gardens reachable from the fresh one by `loadFromFile` on file
contents that load successfully into plants with pairwise distinct ids, none
of them the largest `int`, by `addPlant` called while `next_id` is not the
largest `int`, and by history-append. -/
inductive ReachableGuarded : Garden → Prop where
  | fresh : ReachableGuarded Garden.fresh
  | load (g : Garden) (content : Str) (g1 : Garden) :
      ReachableGuarded g → g.loadFromFile content = some (.ok g1) →
      (g1.plants.map Plant.id).Nodup → (∀ p ∈ g1.plants, p.id ≠ INT_MAX) →
      ReachableGuarded g1
  | add (g : Garden) (p : Plant) :
      ReachableGuarded g → g.next_id ≠ INT_MAX → ReachableGuarded (g.addPlant p).2
  | log (g : Garden) (id : Int) (e : CareEvent) :
      ReachableGuarded g → ReachableGuarded (g.logEvent id e)

/-! ## Values that come back from a saved file -/

/-- A text that a `'|'`-ended field of a line can carry. -/
def fieldText (s : Str) : Prop := '|' ∉ s ∧ '\n' ∉ s

/-- An event that comes back when its line is written and read again: type
and date are field texts, the notes hold no line feed and do not end in a
carriage return. -/
def CareEvent.reloadable (e : CareEvent) : Prop :=
  fieldText e.type ∧ fieldText e.date ∧ '\n' ∉ e.notes ∧ e.notes.getLast? ≠ some '\r'

/-- A plant that comes back when its lines are written and read again. -/
def Plant.reloadable (p : Plant) : Prop :=
  fieldText p.name ∧ fieldText p.species ∧ fieldText p.planted ∧ fieldText p.sunlight ∧
    ∀ e ∈ p.history, e.reloadable

/-! # Theorems -/

/-! ## Text of integers and `std::stoi` -/

theorem digitChar_spec (d : Nat) (h : d < 10) :
    (digitChar d).toNat - 48 = d ∧ isDigit (digitChar d) = true := by
  interval_cases d <;> decide

theorem digitsVal_snoc (l : Str) (c : Char) :
    digitsVal (l ++ [c]) = digitsVal l * 10 + (c.toNat - 48) := by
  simp [digitsVal, List.foldl_append]

theorem natDigits_spec (fuel n : Nat) (h : n < fuel) :
    digitsVal (natDigits fuel n) = n ∧ (∀ c ∈ natDigits fuel n, isDigit c = true) ∧
      natDigits fuel n ≠ [] := by
  induction fuel generalizing n with
  | zero => omega
  | succ k ih =>
    unfold natDigits
    by_cases hn : n < 10
    · rw [if_pos hn]
      have hd := digitChar_spec n hn
      refine ⟨?_, ?_, by simp⟩
      · simpa [digitsVal] using hd.1
      · intro c hc
        rw [List.mem_singleton] at hc
        rw [hc]
        exact hd.2
    · rw [if_neg hn]
      have hrec := ih (n / 10) (by omega)
      have hd := digitChar_spec (n % 10) (Nat.mod_lt _ (by decide))
      refine ⟨?_, ?_, by simp⟩
      · rw [digitsVal_snoc, hrec.1, hd.1]
        omega
      · intro c hc
        rw [List.mem_append, List.mem_singleton] at hc
        rcases hc with hc | hc
        · exact hrec.2.1 c hc
        · rw [hc]
          exact hd.2

theorem natToStr_spec (n : Nat) :
    digitsVal (natToStr n) = n ∧ (∀ c ∈ natToStr n, isDigit c = true) ∧ natToStr n ≠ [] :=
  natDigits_spec (n + 1) n (Nat.lt_succ_self n)

theorem takeWhile_all {α : Type} (p : α → Bool) (l : List α) (h : ∀ x ∈ l, p x = true) :
    l.takeWhile p = l := by
  induction l with
  | nil => rfl
  | cons x xs ih =>
    have hx := h x (List.mem_cons_self _ _)
    simp [List.takeWhile, hx, ih (fun y hy => h y (List.mem_cons_of_mem _ hy))]

/-- `std::stoi` on a non-empty run of digits. -/
theorem stoi_digits (ds : Str) (hne : ds ≠ []) (hd : ∀ c ∈ ds, isDigit c = true)
    (hmax : (digitsVal ds : Int) ≤ INT_MAX) : stoi ds = .ok (digitsVal ds : Int) := by
  obtain ⟨c, cs, rfl⟩ := List.exists_cons_of_ne_nil hne
  have hc : isDigit c = true := hd c (List.mem_cons_self _ _)
  have hsp : isSpace c = false := by
    cases hs : isSpace c
    · rfl
    · exfalso
      simp only [isSpace, Bool.or_eq_true, decide_eq_true_eq] at hs
      rcases hs with ((((h | h) | h) | h) | h) | h <;> · rw [h] at hc; exact absurd hc (by decide)
  have hminus : c ≠ '-' := by
    intro h
    rw [h] at hc
    exact absurd hc (by decide)
  have hplus : c ≠ '+' := by
    intro h
    rw [h] at hc
    exact absurd hc (by decide)
  have hdrop : (c :: cs).dropWhile isSpace = c :: cs := by simp [List.dropWhile, hsp]
  have hbody : (match (c :: cs) with
      | '-' :: r => (true, r)
      | '+' :: r => (false, r)
      | _ => (false, c :: cs)) = (false, c :: cs) := by
    split
    · next h => exact absurd (List.cons.inj h).1 hminus
    · next h => exact absurd (List.cons.inj h).1 hplus
    · rfl
  have htw : (c :: cs).takeWhile isDigit = c :: cs := takeWhile_all _ _ hd
  have hmin : ¬ ((digitsVal (c :: cs) : Int) < INT_MIN) := by
    unfold INT_MIN
    omega
  unfold stoi
  simp only [hdrop, hbody, htw]
  simp [hmin, not_lt.mpr hmax]

/-- `std::stoi` on a minus sign followed by a non-empty run of digits. -/
theorem stoi_neg_digits (ds : Str) (hne : ds ≠ []) (hd : ∀ c ∈ ds, isDigit c = true)
    (hmin : INT_MIN ≤ -(digitsVal ds : Int)) : stoi ('-' :: ds) = .ok (-(digitsVal ds : Int)) := by
  have hdrop : ('-' :: ds).dropWhile isSpace = '-' :: ds := by
    simp [List.dropWhile, show isSpace '-' = false by decide]
  have htw : ds.takeWhile isDigit = ds := takeWhile_all _ _ hd
  have hmax : ¬ (INT_MAX < -(digitsVal ds : Int)) := by
    unfold INT_MAX
    omega
  unfold stoi
  simp only [hdrop, htw]
  simp [hne, not_lt.mpr hmin, hmax]

/-- Reading back the decimal text of an `int` gives the `int`. -/
theorem stoi_intToStr (i : Int) (h : inIntRange i) : stoi (intToStr i) = .ok i := by
  obtain ⟨hval, hdig, hne⟩ := natToStr_spec i.natAbs
  unfold inIntRange at h
  unfold intToStr
  by_cases hneg : i < 0
  · rw [if_pos hneg]
    have hi : -((digitsVal (natToStr i.natAbs) : Nat) : Int) = i := by
      rw [hval]
      omega
    rw [stoi_neg_digits _ hne hdig (by rw [hi]; exact h.1), hi]
  · rw [if_neg hneg]
    have hi : ((digitsVal (natToStr i.natAbs) : Nat) : Int) = i := by
      rw [hval]
      omega
    rw [stoi_digits _ hne hdig (by rw [hi]; exact h.2), hi]

/-- The decimal text of an `int` is not empty and holds only digits and the
minus sign. -/
theorem intToStr_chars (i : Int) :
    intToStr i ≠ [] ∧ ∀ c ∈ intToStr i, isDigit c = true ∨ c = '-' := by
  obtain ⟨_, hdig, hne⟩ := natToStr_spec i.natAbs
  unfold intToStr
  split
  · refine ⟨by simp, ?_⟩
    intro c hc
    rcases List.mem_cons.mp hc with hc | hc
    · exact Or.inr hc
    · exact Or.inl (hdig c hc)
  · exact ⟨hne, fun c hc => Or.inl (hdig c hc)⟩

theorem intToStr_not_mem (i : Int) (c : Char) (hd : isDigit c = false) (hm : c ≠ '-') :
    c ∉ intToStr i := by
  intro hc
  rcases (intToStr_chars i).2 c hc with h | h
  · rw [hd] at h
    exact absurd h (by decide)
  · exact hm h

/-! ## `std::getline` on a string stream -/

theorem span_delim (d : Char) (a r : Str) (h : d ∉ a) :
    (a ++ d :: r).span (fun c => c != d) = (a, d :: r) := by
  rw [List.span_eq_take_drop]
  induction a with
  | nil => simp [List.takeWhile, List.dropWhile]
  | cons x xs ih =>
    have hx : x ≠ d := fun hxd => h (hxd ▸ List.mem_cons_self _ _)
    have hxs : d ∉ xs := fun hm => h (List.mem_cons_of_mem _ hm)
    have hb : (x != d) = true := by simp [hx]
    have ih := ih hxs
    simp only [Prod.mk.injEq] at ih
    rw [List.cons_append, List.takeWhile_cons, List.dropWhile_cons, hb, ih.1, ih.2]
    rfl

theorem span_no_delim (d : Char) (a : Str) (h : d ∉ a) :
    a.span (fun c => c != d) = (a, []) := by
  rw [List.span_eq_take_drop]
  induction a with
  | nil => simp [List.takeWhile, List.dropWhile]
  | cons x xs ih =>
    have hx : x ≠ d := fun hxd => h (hxd ▸ List.mem_cons_self _ _)
    have hxs : d ∉ xs := fun hm => h (List.mem_cons_of_mem _ hm)
    have hb : (x != d) = true := by simp [hx]
    have ih := ih hxs
    simp only [Prod.mk.injEq] at ih
    rw [List.takeWhile_cons, List.dropWhile_cons, hb, ih.1, ih.2]
    rfl

/-- A token followed by its delimiter: the token is delivered and the stream
stays good. -/
theorem getline_delim (d : Char) (a r cur : Str) (h : d ∉ a) :
    getline ⟨a ++ d :: r, true⟩ cur d = (⟨r, true⟩, a) := by
  simp only [getline, span_delim d a r h, if_true]

/-- A last token that runs to the end of the buffer: it is delivered and the
stream stops being good. -/
theorem getline_last (d : Char) (a cur : Str) (h : d ∉ a) :
    getline ⟨a, true⟩ cur d = (⟨[], false⟩, a) := by
  simp only [getline, span_no_delim d a h, if_true]

/-! ## Record codec -/

/-- The text of a plant line, from the texts of its eight fields. -/
theorem plant_serialize_eq (p : Plant) :
    p.serialize = ['P','L','A','N','T'] ++ '|' :: (intToStr p.id ++ '|' :: (p.name ++ '|' ::
      (p.species ++ '|' :: (p.planted ++ '|' :: (intToStr p.pot_size_cm ++ '|' ::
      (p.sunlight ++ '|' :: (intToStr p.watering.interval_days ++ '|' ::
        intToStr p.fertilizer.interval_days))))))) := by
  simp [Plant.serialize, PLANT_TAG, Schedule.serialize]

theorem event_serialize_eq (e : CareEvent) :
    e.serialize = ['E','V','E','N','T'] ++ '|' :: (e.type ++ '|' :: (e.date ++ '|' :: e.notes)) := by
  simp [CareEvent.serialize, EVENT_TAG]

theorem isEventLine_serialize (e : CareEvent) : isEventLine e.serialize = true := by
  simp [isEventLine, CareEvent.serialize, EVENT_TAG]

theorem isEventLine_plant (p : Plant) : isEventLine p.serialize = false := by
  rw [plant_serialize_eq]
  rfl

theorem isPlantLine_serialize (p : Plant) : isPlantLine p.serialize = true := by
  simp [isPlantLine, Plant.serialize, PLANT_TAG]

theorem isPlantLine_event (l : Str) (h : isEventLine l = true) : isPlantLine l = false := by
  cases l with
  | nil => simp [isEventLine, EVENT_TAG] at h
  | cons c tl =>
    have hc : 'E' = c := by
      simp [isEventLine, EVENT_TAG] at h
      exact h.1
    subst hc
    rfl

/-- Decoding of an event line built from a type and a date without `'|'` and
notes without line feed. -/
theorem event_deserialize_serialize (e : CareEvent)
    (htype : '|' ∉ e.type) (hdate : '|' ∉ e.date) (hnotes : '\n' ∉ e.notes) :
    CareEvent.deserialize e.serialize = e := by
  have htag : '|' ∉ ['E','V','E','N','T'] := by decide
  rw [event_serialize_eq]
  simp only [CareEvent.deserialize, IStream.ofStr, getline_delim _ _ _ _ htag,
    getline_delim _ _ _ _ htype, getline_delim _ _ _ _ hdate, getline_last _ _ _ hnotes]

/-- The event loop of `Plant::deserialize`: the longest run of event lines at
the front is decoded in order and removed, the rest is left as it is. -/
theorem consumeEvents_eq (L : List Str) (history : List CareEvent) :
    consumeEvents L history =
      (history ++ (L.takeWhile isEventLine).map CareEvent.deserialize,
        L.dropWhile isEventLine) := by
  induction L generalizing history with
  | nil => simp [consumeEvents]
  | cons l ls ih =>
    cases hl : isEventLine l
    · simp [consumeEvents, hl, List.takeWhile, List.dropWhile]
    · simp [consumeEvents, hl, List.takeWhile, List.dropWhile, ih]

/-- The following lines only feed the history: the header fields, and
whether decoding throws, are those of the call with no following line. -/
theorem plant_deserialize_following (line : Str) (L : List Str) :
    Plant.deserialize line L =
      match Plant.deserialize line [] with
      | .error e => .error e
      | .ok (p0, _) =>
        .ok ({ p0 with history := (consumeEvents L []).1 }, (consumeEvents L []).2) := by
  unfold Plant.deserialize
  simp only [consumeEvents]
  cases h1 : stoi (getline (getline (IStream.ofStr line) [] '|').1
      (getline (IStream.ofStr line) [] '|').2 '|').2 with
  | error e => simp
  | ok id =>
    simp only []
    split
    · simp_all
    · simp_all

/-- Decoding of a plant line with nine fields, none of the last eight
holding a `'|'`. -/
theorem plant_deserialize_fields (tag f1 f2 f3 f4 f5 f6 f7 f8 : Str) (L : List Str)
    (h0 : '|' ∉ tag) (h1 : '|' ∉ f1) (h2 : '|' ∉ f2) (h3 : '|' ∉ f3) (h4 : '|' ∉ f4)
    (h5 : '|' ∉ f5) (h6 : '|' ∉ f6) (h7 : '|' ∉ f7) (h8 : '|' ∉ f8) :
    Plant.deserialize (tag ++ '|' :: (f1 ++ '|' :: (f2 ++ '|' :: (f3 ++ '|' :: (f4 ++ '|' ::
        (f5 ++ '|' :: (f6 ++ '|' :: (f7 ++ '|' :: f8)))))))) L =
      match stoi f1 with
      | .error e => .error e
      | .ok id =>
        match stoi f5 with
        | .error e => .error e
        | .ok pot =>
          .ok (⟨id, f2, f3, f4, pot, f6, Schedule.deserialize f7, Schedule.deserialize f8,
            (consumeEvents L []).1⟩, (consumeEvents L []).2) := by
  simp only [Plant.deserialize, IStream.ofStr, getline_delim _ _ _ _ h0,
    getline_delim _ _ _ _ h1, getline_delim _ _ _ _ h2, getline_delim _ _ _ _ h3,
    getline_delim _ _ _ _ h4, getline_delim _ _ _ _ h5, getline_delim _ _ _ _ h6,
    getline_delim _ _ _ _ h7, getline_last _ _ _ h8]

/-! ## Schedule engine -/

theorem scanLast_skip ( type : Str) (newer older : List CareEvent)
    (h : ∀ x ∈ newer, x.type ≠ type) :
    scanLast type (newer ++ older) = scanLast type older := by
  induction newer with
  | nil => rfl
  | cons x xs ih =>
    have hx : x.type ≠ type := h x (List.mem_cons_self _ _)
    have hxs : ∀ y ∈ xs, y.type ≠ type := fun y hy => h y (List.mem_cons_of_mem _ hy)
    simp [scanLast, hx, ih hxs]

theorem scanLast_none ( type : Str) (l : List CareEvent)
    (h : ∀ x ∈ l, x.type ≠ type) : scanLast type l = [] := by
  have := scanLast_skip type l [] h
  simpa [scanLast] using this

theorem scanLast_filter ( type : Str) (keep : CareEvent → Bool)
    (hkeep : ∀ e, e.type = type → keep e = true) (l : List CareEvent) :
    scanLast type (l.filter keep) = scanLast type l := by
  induction l with
  | nil => rfl
  | cons x xs ih =>
    by_cases hx : x.type = type
    · simp [List.filter, hkeep x hx, scanLast, hx]
    · cases hk : keep x
      · simp [List.filter, hk, scanLast, hx, ih]
      · simp [List.filter, hk, scanLast, hx, ih]

theorem computeNext_filter (L : TimeLib) (s : Schedule) ( type : Str)
    (keep : CareEvent → Bool) (hkeep : ∀ e, e.type = type → keep e = true)
    (h : List CareEvent) :
    s.computeNext L (h.filter keep) type = s.computeNext L h type := by
  unfold Schedule.computeNext
  rw [← List.filter_reverse, scanLast_filter type keep hkeep]

/-- C6 (amended): with a positive interval, when the history is
`older ++ e :: newer` where `e` has the requested type and no event of
`newer` has it (so `e` is the last matching event in sequence order, whatever
the dates are), `computeNext` returns `add_days(e.date, interval_days)` when
`e.date` is not empty, and `"due now"` when `e.date` is the empty string. -/
theorem computeNext_last_matching (L : TimeLib) (s : Schedule)
    (older newer : List CareEvent) (e : CareEvent) ( type : Str)
    (hpos : 0 < s.interval_days) (he : e.type = type)
    (hnewer : ∀ x ∈ newer, x.type ≠ type) :
    s.computeNext L (older ++ e :: newer) type =
      if e.date = [] then DUE_NOW else add_days L e.date s.interval_days := by
  have hscan : scanLast type (older ++ e :: newer).reverse = e.date := by
    have hrev : ∀ x ∈ newer.reverse, x.type ≠ type := fun x hx =>
      hnewer x (List.mem_reverse.mp hx)
    rw [List.reverse_append, List.reverse_cons, List.append_assoc,
      scanLast_skip type _ _ hrev]
    simp [scanLast, he]
  unfold Schedule.computeNext
  rw [if_neg (not_le.mpr hpos), hscan]

/-- Witness of C6: two watering events appended out of date order, interval 5;
the later-appended one (dated 2024-01-01) decides. -/
theorem computeNext_last_matching_witness :
    (0 : Int) < (Schedule.mk 5).interval_days ∧
    (Schedule.mk 5).computeNext utcLib
        ([⟨WATER, "2024-01-10".toList, []⟩] ++ ⟨WATER, "2024-01-01".toList, []⟩ ::
          [⟨FERTILIZE, "2024-01-20".toList, []⟩]) WATER
      = "2024-01-06".toList := by
  refine ⟨by decide, ?_⟩
  rw [computeNext_last_matching utcLib ⟨5⟩ _ _ ⟨WATER, "2024-01-01".toList, []⟩ WATER
    (by decide) rfl (by decide)]
  decide

/-- Counterexample to C6 as stated: the only event has the requested type and
an empty date; `computeNext` answers `"due now"`, while `add_days` of that
date is `"invalid-date"`. -/
theorem computeNext_empty_date_counterexample :
    (Schedule.mk 7).computeNext utcLib [⟨WATER, [], "note".toList⟩] WATER = DUE_NOW ∧
    add_days utcLib (CareEvent.mk WATER [] "note".toList).date 7 = INVALID_DATE ∧
    (Schedule.mk 7).computeNext utcLib [⟨WATER, [], "note".toList⟩] WATER ≠
      add_days utcLib (CareEvent.mk WATER [] "note".toList).date 7 := by
  decide

/-- C7: `computeNext` depends only on the events of the requested type: the
result on a history equals the result on the history with every event of
another type removed. In particular two histories that differ only by
events of type `"fertilize"` (inserted or removed anywhere) give the same
result for `"water"`. -/
theorem computeNext_type_isolation (L : TimeLib) (s : Schedule) :
    (∀ (h : List CareEvent) ( type : Str),
      s.computeNext L h type =
        s.computeNext L (h.filter (fun e => decide (e.type = type))) type) ∧
    (∀ h1 h2 : List CareEvent,
      h1.filter (fun e => decide (e.type ≠ FERTILIZE)) =
        h2.filter (fun e => decide (e.type ≠ FERTILIZE)) →
      s.computeNext L h1 WATER = s.computeNext L h2 WATER) := by
  constructor
  · intro h type
    exact (computeNext_filter L s type _ (fun e he => by simp [he]) h).symm
  · intro h1 h2 heq
    have hkeep : ∀ e : CareEvent, e.type = WATER → decide (e.type ≠ FERTILIZE) = true := by
      intro e he
      rw [he]
      decide
    rw [← computeNext_filter L s WATER _ hkeep h1, ← computeNext_filter L s WATER _ hkeep h2,
      heq]

/-- Witness of C7: a fertilize event inserted between two watering events and
one appended at the end leave the watering due date unchanged. -/
theorem computeNext_type_isolation_witness :
    (Schedule.mk 5).computeNext utcLib
        [⟨WATER, "2024-01-01".toList, []⟩, ⟨FERTILIZE, "2024-01-05".toList, []⟩,
          ⟨WATER, "2024-01-10".toList, []⟩, ⟨FERTILIZE, "2024-02-01".toList, []⟩] WATER
      = (Schedule.mk 5).computeNext utcLib
        [⟨WATER, "2024-01-01".toList, []⟩, ⟨WATER, "2024-01-10".toList, []⟩] WATER :=
  (computeNext_type_isolation utcLib ⟨5⟩).2 _ _ (by decide)

/-- C8: with a positive interval and a history holding no event of the
requested type (the empty history included), `computeNext` returns
`"due now"`. -/
theorem computeNext_no_match (L : TimeLib) (s : Schedule) (h : List CareEvent)
    ( type : Str) (hpos : 0 < s.interval_days) (hnone : ∀ x ∈ h, x.type ≠ type) :
    s.computeNext L h type = "due now".toList := by
  have hscan : scanLast type h.reverse = [] :=
    scanLast_none type _ (fun x hx => hnone x (List.mem_reverse.mp hx))
  unfold Schedule.computeNext
  rw [if_neg (not_le.mpr hpos), hscan]
  rfl

/-- Witness of C8: `computeNext([], 7, "water") == "due now"`. -/
theorem computeNext_no_match_witness :
    (0 : Int) < (Schedule.mk 7).interval_days ∧
    (Schedule.mk 7).computeNext utcLib [] "water".toList = "due now".toList :=
  ⟨by decide, computeNext_no_match utcLib ⟨7⟩ [] "water".toList (by decide) (by simp)⟩

/-- C9 (amended): for every history, care type and interval `≤ 0`,
`computeNext` returns the literal string `"Manual Care"`. -/
theorem computeNext_manual (L : TimeLib) (s : Schedule) (h : List CareEvent)
    ( type : Str) (hman : s.interval_days ≤ 0) :
    s.computeNext L h type = "Manual Care".toList := by
  unfold Schedule.computeNext
  rw [if_pos hman]
  rfl

/-- Witness of C9: interval 0 and a history with a watering event. -/
theorem computeNext_manual_witness :
    (Schedule.mk 0).interval_days ≤ 0 ∧
    (Schedule.mk 0).computeNext utcLib [⟨WATER, "2024-01-01".toList, []⟩] "water".toList
      = "Manual Care".toList :=
  ⟨by decide, computeNext_manual utcLib ⟨0⟩ _ _ (by decide)⟩

/-- Counterexample to C9 as stated: with interval 0 the result is not the
string `"manual"`. -/
theorem computeNext_manual_counterexample :
    (Schedule.mk 0).computeNext utcLib [] "water".toList ≠ "manual".toList := by
  decide

/-! ## Identifier assignment -/

theorem wrap32_of_inIntRange (x : Int) (h : inIntRange x) : wrap32 x = x := by
  unfold inIntRange INT_MIN INT_MAX at h
  unfold wrap32
  omega

theorem addAll_append (g : Garden) (a b : List Plant) :
    g.addAll (a ++ b) = (g.addAll a).addAll b := by
  induction a generalizing g with
  | nil => rfl
  | cons p ps ih => simp [Garden.addAll, ih]

/-- The invariant carried by a run of `addPlant` calls that stays below the
top of the `int` range: the counter grows by one per call, and the ids are
distinct and below the counter. -/
theorem addAll_inv (ps : List Plant) (g : Garden)
    (hlo : 1 ≤ g.next_id) (hhi : g.next_id + ps.length ≤ 2147483647)
    (hnd : (g.plants.map Plant.id).Nodup) (hlt : ∀ p ∈ g.plants, p.id < g.next_id) :
    (g.addAll ps).next_id = g.next_id + ps.length ∧
    ((g.addAll ps).plants.map Plant.id).Nodup ∧
    ∀ p ∈ (g.addAll ps).plants, p.id < (g.addAll ps).next_id := by
  induction ps generalizing g with
  | nil => simpa [Garden.addAll] using ⟨hnd, hlt⟩
  | cons q qs ih =>
    have hlen : ((q :: qs).length : Int) = (qs.length : Int) + 1 := by simp
    rw [hlen] at hhi
    have hstep : wrap32 (g.next_id + 1) = g.next_id + 1 := by
      apply wrap32_of_inIntRange
      unfold inIntRange INT_MIN INT_MAX
      constructor <;> omega
    have hnext : (g.addPlant q).2.next_id = g.next_id + 1 := hstep
    have hplants : (g.addPlant q).2.plants = g.plants ++ [{ q with id := g.next_id }] := rfl
    have h := ih (g.addPlant q).2 (by rw [hnext]; omega) (by rw [hnext]; omega)
      (by
        rw [hplants, List.map_append, List.nodup_append]
        refine ⟨hnd, by simp, ?_⟩
        intro a ha hb
        simp only [List.map_cons, List.map_nil, List.mem_singleton] at hb
        obtain ⟨p, hp, rfl⟩ := List.mem_map.mp ha
        have := hlt p hp
        omega)
      (by
        intro p hp
        rw [hplants, List.mem_append] at hp
        rw [hnext]
        rcases hp with hp | hp
        · have := hlt p hp
          omega
        · rw [List.mem_singleton] at hp
          rw [hp]
          show g.next_id < g.next_id + 1
          omega)
    rw [hnext] at h
    refine ⟨?_, h.2.1, h.2.2⟩
    show ((g.addPlant q).2.addAll qs).next_id = _
    rw [h.1, hlen]
    ring

/-- C10 (amended): starting from a fresh `Garden`, after any sequence of
fewer than 2^31 - 1 `addPlant` calls with arbitrary argument plants, the ids
of the stored plants are pairwise distinct and `next_id` is strictly greater
than every stored id. -/
theorem addPlant_ids_distinct_below_next (ps : List Plant)
    (hlen : ps.length < 2147483647) :
    ((Garden.fresh.addAll ps).plants.map Plant.id).Nodup ∧
    ∀ p ∈ (Garden.fresh.addAll ps).plants, p.id < (Garden.fresh.addAll ps).next_id := by
  have h := addAll_inv ps Garden.fresh (by decide)
    (by
      show (1 : Int) + (ps.length : Int) ≤ 2147483647
      omega)
    (by simp [Garden.fresh]) (by simp [Garden.fresh])
  exact h.2

/-- Witness of C10: three calls whose arguments all carry the id 42 store the
ids 1, 2, 3 and leave `next_id = 4`. -/
theorem addPlant_ids_distinct_below_next_witness :
    [Plant.mk 42 [] [] [] 0 [] ⟨0⟩ ⟨0⟩ [], Plant.mk 42 [] [] [] 0 [] ⟨0⟩ ⟨0⟩ [],
        Plant.mk 42 [] [] [] 0 [] ⟨0⟩ ⟨0⟩ []].length < 2147483647 ∧
    (Garden.fresh.addAll [Plant.mk 42 [] [] [] 0 [] ⟨0⟩ ⟨0⟩ [],
        Plant.mk 42 [] [] [] 0 [] ⟨0⟩ ⟨0⟩ [],
        Plant.mk 42 [] [] [] 0 [] ⟨0⟩ ⟨0⟩ []]).plants.map Plant.id = [1, 2, 3] ∧
    (Garden.fresh.addAll [Plant.mk 42 [] [] [] 0 [] ⟨0⟩ ⟨0⟩ [],
        Plant.mk 42 [] [] [] 0 [] ⟨0⟩ ⟨0⟩ [],
        Plant.mk 42 [] [] [] 0 [] ⟨0⟩ ⟨0⟩ []]).next_id = 4 ∧
    (((Garden.fresh.addAll [Plant.mk 42 [] [] [] 0 [] ⟨0⟩ ⟨0⟩ [],
        Plant.mk 42 [] [] [] 0 [] ⟨0⟩ ⟨0⟩ [],
        Plant.mk 42 [] [] [] 0 [] ⟨0⟩ ⟨0⟩ []]).plants.map Plant.id).Nodup ∧
      ∀ p ∈ (Garden.fresh.addAll [Plant.mk 42 [] [] [] 0 [] ⟨0⟩ ⟨0⟩ [],
        Plant.mk 42 [] [] [] 0 [] ⟨0⟩ ⟨0⟩ [],
        Plant.mk 42 [] [] [] 0 [] ⟨0⟩ ⟨0⟩ []]).plants,
        p.id < (Garden.fresh.addAll [Plant.mk 42 [] [] [] 0 [] ⟨0⟩ ⟨0⟩ [],
          Plant.mk 42 [] [] [] 0 [] ⟨0⟩ ⟨0⟩ [],
          Plant.mk 42 [] [] [] 0 [] ⟨0⟩ ⟨0⟩ []]).next_id) :=
  ⟨by decide, by decide, by decide, addPlant_ids_distinct_below_next _ (by decide)⟩

theorem addAll_overflow (ps : List Plant) (q : Plant) (hlen : ps.length = 2147483646) :
    (Garden.fresh.addAll (ps ++ [q])).next_id = INT_MIN ∧
    { q with id := INT_MAX } ∈ (Garden.fresh.addAll (ps ++ [q])).plants := by
  have h := addAll_inv ps Garden.fresh (by decide)
    (by
      show (1 : Int) + (ps.length : Int) ≤ 2147483647
      omega)
    (by simp [Garden.fresh]) (by simp [Garden.fresh])
  have hnext : (Garden.fresh.addAll ps).next_id = INT_MAX := by
    rw [h.1]
    show (1 : Int) + (ps.length : Int) = 2147483647
    omega
  rw [addAll_append]
  constructor
  · show wrap32 ((Garden.fresh.addAll ps).next_id + 1) = INT_MIN
    rw [hnext]
    decide
  · show _ ∈ (Garden.fresh.addAll ps).plants ++ [{ q with id := (Garden.fresh.addAll ps).next_id }]
    rw [hnext]
    simp

/-- Counterexample to C10 as stated: after 2^31 - 1 calls of `addPlant` on a
fresh garden the counter has wrapped to the smallest `int`, and is not
greater than the id 2147483647 given by the last call. -/
theorem addPlant_counter_wraps_counterexample :
    ¬ ∀ p ∈ (Garden.fresh.addAll (List.replicate 2147483646 (Plant.mk 0 [] [] [] 0 [] ⟨0⟩ ⟨0⟩ [])
          ++ [Plant.mk 0 [] [] [] 0 [] ⟨0⟩ ⟨0⟩ []])).plants,
        p.id < (Garden.fresh.addAll (List.replicate 2147483646
          (Plant.mk 0 [] [] [] 0 [] ⟨0⟩ ⟨0⟩ []) ++ [Plant.mk 0 [] [] [] 0 [] ⟨0⟩ ⟨0⟩ []])).next_id := by
  intro hall
  have h := addAll_overflow (List.replicate 2147483646 (Plant.mk 0 [] [] [] 0 [] ⟨0⟩ ⟨0⟩ []))
    (Plant.mk 0 [] [] [] 0 [] ⟨0⟩ ⟨0⟩ []) (List.length_replicate _ _)
  have hlt := hall _ h.2
  rw [h.1] at hlt
  exact absurd hlt (by decide)

/-! ## Plant codec -/

/-- C4: for a plant header line that decodes (to `p0` when no line follows)
and every sequence `L` of following lines, `Plant::deserialize` returns the
header's plant with, as history, the decodes in order of the longest prefix
of `L` made of lines starting with `"EVENT|"`, and leaves in `L` exactly the
remaining suffix, unchanged and in order. -/
theorem deserialize_consumes_event_prefix (line : Str) (L : List Str) (p0 : Plant)
    (r0 : List Str) (hdec : Plant.deserialize line [] = .ok (p0, r0)) :
    Plant.deserialize line L =
      .ok ({ p0 with history := (L.takeWhile isEventLine).map CareEvent.deserialize },
        L.dropWhile isEventLine) := by
  rw [plant_deserialize_following, hdec]
  simp [consumeEvents_eq]

/-- Witness of C4: two event lines, then a plant line and a further event
line that stay in the following lines. -/
theorem deserialize_consumes_event_prefix_witness :
    Plant.deserialize "PLANT|3|Fern|Boston|2024-01-01|12|shade|7|30".toList [] =
      .ok (⟨3, "Fern".toList, "Boston".toList, "2024-01-01".toList, 12, "shade".toList,
        ⟨7⟩, ⟨30⟩, []⟩, []) ∧
    Plant.deserialize "PLANT|3|Fern|Boston|2024-01-01|12|shade|7|30".toList
        ["EVENT|water|2024-01-02|a".toList, "EVENT|fertilize|2024-01-03|".toList,
          "PLANT|4|Ivy|||0||0|0".toList, "EVENT|water|2024-01-04|b".toList] =
      .ok (⟨3, "Fern".toList, "Boston".toList, "2024-01-01".toList, 12, "shade".toList,
        ⟨7⟩, ⟨30⟩, [⟨"water".toList, "2024-01-02".toList, "a".toList⟩,
          ⟨"fertilize".toList, "2024-01-03".toList, []⟩]⟩,
        ["PLANT|4|Ivy|||0||0|0".toList, "EVENT|water|2024-01-04|b".toList]) :=
  ⟨by decide, deserialize_consumes_event_prefix
    "PLANT|3|Fern|Boston|2024-01-01|12|shade|7|30".toList
    ["EVENT|water|2024-01-02|a".toList, "EVENT|fertilize|2024-01-03|".toList,
      "PLANT|4|Ivy|||0||0|0".toList, "EVENT|water|2024-01-04|b".toList]
    ⟨3, "Fern".toList, "Boston".toList, "2024-01-01".toList, 12, "shade".toList, ⟨7⟩, ⟨30⟩, []⟩
    [] (by decide)⟩

/-- C5: `Plant::deserialize` at failing inputs. The two `std::stoi` calls for
the id and the pot size are not guarded: the id text `"abc"` makes the first
throw `std::invalid_argument`, a missing id (the line `"PLANT|"`) does the
same, and a pot size beyond `int` makes the second throw `std::out_of_range`;
no plant is returned. The same bad texts in the two interval fields, which go
through the guarded `Schedule::deserialize`, decode to 0. -/
theorem deserialize_unguarded_stoi :
    Plant.deserialize "PLANT|abc|Fern|Boston|2024-01-01|12|shade|7|30".toList [] =
      .error .invalid_argument ∧
    Plant.deserialize "PLANT|".toList [] = .error .invalid_argument ∧
    Plant.deserialize "PLANT|1|Fern|Boston|2024-01-01|99999999999|shade|7|30".toList [] =
      .error .out_of_range ∧
    Plant.deserialize "PLANT|1|Fern|Boston|2024-01-01|12|shade|abc|99999999999".toList [] =
      .ok (⟨1, "Fern".toList, "Boston".toList, "2024-01-01".toList, 12, "shade".toList,
        ⟨0⟩, ⟨0⟩, []⟩, []) ∧
    (Schedule.deserialize "abc".toList).interval_days = 0 := by
  decide

theorem map_deserialize_serialize (h : List CareEvent) (henc : ∀ e ∈ h, e.encodable) :
    (h.map CareEvent.serialize).map CareEvent.deserialize = h := by
  induction h with
  | nil => rfl
  | cons e es ih =>
    have he := henc e (List.mem_cons_self _ _)
    simp only [List.map_cons]
    rw [event_deserialize_serialize e he.1 he.2.1 he.2.2,
      ih (fun x hx => henc x (List.mem_cons_of_mem _ hx))]

theorem takeWhile_event_serialize (h : List CareEvent) :
    (h.map CareEvent.serialize).takeWhile isEventLine = h.map CareEvent.serialize ∧
    (h.map CareEvent.serialize).dropWhile isEventLine = [] := by
  induction h with
  | nil => exact ⟨rfl, rfl⟩
  | cons e es ih =>
    simp only [List.map_cons, List.takeWhile_cons, List.dropWhile_cons, isEventLine_serialize,
      if_true, ih.1, ih.2, and_self]

/-- Decoding the header line of a plant, whatever lines follow: the plant's
scalar fields come back. -/
theorem plant_deserialize_serialize_header (p : Plant) (L : List Str) (hint : p.intsInRange)
    (hname : '|' ∉ p.name) (hspecies : '|' ∉ p.species) (hplanted : '|' ∉ p.planted)
    (hsun : '|' ∉ p.sunlight) :
    Plant.deserialize p.serialize L =
      .ok ({ p with history := (consumeEvents L []).1 }, (consumeEvents L []).2) := by
  have hbar : ∀ i : Int, '|' ∉ intToStr i := fun i =>
    intToStr_not_mem i '|' (by decide) (by decide)
  rw [plant_serialize_eq, plant_deserialize_fields _ _ _ _ _ _ _ _ _ L (by decide) (hbar _) hname
    hspecies hplanted (hbar _) hsun (hbar _) (hbar _), stoi_intToStr _ hint.1,
    stoi_intToStr _ hint.2.1]
  simp only [Schedule.deserialize, stoi_intToStr _ hint.2.2.1, stoi_intToStr _ hint.2.2.2]

/-- C1 (amended): for any plant (its four `int` members within the range of
the type) whose name, species, planted and sunlight hold no `'|'`, and whose
history events (any number, zero included) hold no `'|'` in type and date and
no line feed in notes, decoding the plant's header line followed by its
serialized events returns the plant, equal field for field, with the same
history in the same order and count, and leaves no line over. -/
theorem plant_round_trip (p : Plant) (hint : p.intsInRange)
    (hname : '|' ∉ p.name) (hspecies : '|' ∉ p.species) (hplanted : '|' ∉ p.planted)
    (hsun : '|' ∉ p.sunlight) (hev : ∀ e ∈ p.history, e.encodable) :
    Plant.deserialize p.serialize (p.history.map CareEvent.serialize) = .ok (p, []) := by
  rw [plant_deserialize_serialize_header p _ hint hname hspecies hplanted hsun,
    consumeEvents_eq, (takeWhile_event_serialize p.history).1,
    (takeWhile_event_serialize p.history).2, map_deserialize_serialize p.history hev]
  rfl

/-- Witness of C1: a plant with three events, one with empty notes and one
whose notes hold a `'|'`. -/
theorem plant_round_trip_witness :
    Plant.deserialize
      (Plant.mk 7 "Fern".toList "Boston fern".toList "2024-01-01".toList 12 [] ⟨7⟩ ⟨-1⟩
        [⟨"water".toList, "2024-01-02".toList, []⟩,
          ⟨"fertilize".toList, "2024-01-03".toList, "half dose | liquid".toList⟩,
          ⟨"water".toList, [], "no date".toList⟩]).serialize
      ((Plant.mk 7 "Fern".toList "Boston fern".toList "2024-01-01".toList 12 [] ⟨7⟩ ⟨-1⟩
        [⟨"water".toList, "2024-01-02".toList, []⟩,
          ⟨"fertilize".toList, "2024-01-03".toList, "half dose | liquid".toList⟩,
          ⟨"water".toList, [], "no date".toList⟩]).history.map CareEvent.serialize) =
    .ok (Plant.mk 7 "Fern".toList "Boston fern".toList "2024-01-01".toList 12 [] ⟨7⟩ ⟨-1⟩
        [⟨"water".toList, "2024-01-02".toList, []⟩,
          ⟨"fertilize".toList, "2024-01-03".toList, "half dose | liquid".toList⟩,
          ⟨"water".toList, [], "no date".toList⟩], []) :=
  plant_round_trip _ (by decide) (by decide) (by decide) (by decide) (by decide) (by decide)

/-- Counterexample to C1 as stated: a plant whose name holds a `'|'` does not
come back: the name is cut at the `'|'`, the later fields shift by one, and
the text of `planted` is read as the pot size, which makes `std::stoi`
throw. -/
theorem plant_round_trip_counterexample :
    Plant.deserialize (Plant.mk 1 "a|b".toList "s".toList "d".toList 5 "sun".toList ⟨7⟩ ⟨3⟩
        []).serialize [] =
      .error .invalid_argument ∧
    Plant.deserialize (Plant.mk 1 "a|b".toList "s".toList "d".toList 5 "sun".toList ⟨7⟩ ⟨3⟩
        []).serialize
        ((Plant.mk 1 "a|b".toList "s".toList "d".toList 5 "sun".toList ⟨7⟩ ⟨3⟩
          []).history.map CareEvent.serialize) ≠
      .ok (Plant.mk 1 "a|b".toList "s".toList "d".toList 5 "sun".toList ⟨7⟩ ⟨3⟩ [], []) := by
  decide

/-! ## Reading the lines of a file -/

theorem stripCR_of_not_mem (l : Str) (h : '\r' ∉ l) : stripCR l = l := by
  unfold stripCR
  rw [if_neg]
  intro hc
  exact h (List.mem_of_getLast?_eq_some hc.2)

theorem readLines_line (l rest cur : Str) (acc : List Str) (h : '\n' ∉ l) :
    readLines (l ++ '\n' :: rest) cur acc = readLines rest [] (pushLine acc (cur ++ l)) := by
  induction l generalizing cur with
  | nil => simp [readLines]
  | cons c cs ih =>
    have hc : c ≠ '\n' := fun hcn => h (hcn ▸ List.mem_cons_self _ _)
    have hcs : '\n' ∉ cs := fun hm => h (List.mem_cons_of_mem _ hm)
    have hrec := ih (cur ++ [c]) hcs
    rw [List.append_assoc, List.singleton_append] at hrec
    rw [List.cons_append, ← hrec]
    simp only [readLines, if_neg hc]

/-- Reading a file of line-feed ended lines: every line loses one trailing
carriage return and the lines then empty are dropped. -/
theorem readLines_joinLines (ls : List Str) (acc : List Str) (h : ∀ l ∈ ls, '\n' ∉ l) :
    readLines (joinLines ls) [] acc =
      acc ++ (ls.map stripCR).filter (fun l => decide (l ≠ [])) := by
  induction ls generalizing acc with
  | nil => simp [joinLines, readLines]
  | cons l ls ih =>
    have hl := h l (List.mem_cons_self _ _)
    have hls : ∀ x ∈ ls, '\n' ∉ x := fun x hx => h x (List.mem_cons_of_mem _ hx)
    simp only [joinLines]
    rw [readLines_line l _ [] acc hl, ih _ hls]
    simp only [List.nil_append, pushLine, List.map_cons, List.filter_cons]
    by_cases hne : stripCR l = []
    · simp [hne]
    · simp [hne]

/-! ## The loading loop -/

theorem dropWhile_eq_drop {α : Type} (p : α → Bool) (l : List α) :
    l.dropWhile p = l.drop (l.takeWhile p).length := by
  induction l with
  | nil => rfl
  | cons x xs ih =>
    cases hx : p x
    · simp [List.takeWhile_cons, List.dropWhile_cons, hx]
    · simp [List.takeWhile_cons, List.dropWhile_cons, hx, ih]

theorem drop_eraseIdx_le {α : Type} (l : List α) (i j : Nat) (h : i ≤ j) :
    (l.eraseIdx i).drop j = l.drop (j + 1) := by
  induction l generalizing i j with
  | nil => simp
  | cons x xs ih =>
    cases i with
    | zero => simp
    | succ i =>
      cases j with
      | zero => omega
      | succ j =>
        simp only [List.eraseIdx_cons_succ, List.drop_succ_cons]
        exact ih i j (by omega)

theorem eraseTimes_length (k pos : Nat) (lines : List Str) :
    (eraseTimes k pos lines).length ≤ lines.length := by
  induction k generalizing lines with
  | zero => simp [eraseTimes]
  | succ k ih =>
    simp only [eraseTimes]
    exact le_trans (ih _) (List.length_eraseIdx_le _ _)

theorem eraseTimes_drop (k pos : Nat) (lines : List Str) :
    (eraseTimes k pos lines).drop pos = lines.drop (pos + k) := by
  induction k generalizing lines with
  | zero => simp [eraseTimes]
  | succ k ih =>
    simp only [eraseTimes]
    rw [ih, drop_eraseIdx_le _ _ _ (by omega)]
    rfl

/-- What `Plant::deserialize` returns when it returns: the header's plant
with the decoded run of event lines as history, and the lines after the
run. -/
theorem plant_deserialize_ok (line : Str) (L : List Str) (p : Plant) (rest : List Str)
    (h : Plant.deserialize line L = .ok (p, rest)) :
    headerDecodes line = true ∧
    p = { headerPlant line with
          history := (L.takeWhile isEventLine).map CareEvent.deserialize } ∧
    rest = L.dropWhile isEventLine := by
  rw [plant_deserialize_following] at h
  unfold headerDecodes headerPlant
  cases hd : Plant.deserialize line [] with
  | error e =>
    rw [hd] at h
    exact absurd h (by simp)
  | ok pr =>
    rw [hd] at h
    simp only [consumeEvents_eq, List.nil_append, Except.ok.injEq, Prod.mk.injEq] at h
    exact ⟨rfl, h.1.symm, h.2.symm⟩

/-- What `Plant::deserialize` returns on a header that decodes. -/
theorem plant_deserialize_of_headerDecodes (line : Str) (L : List Str)
    (h : headerDecodes line = true) :
    Plant.deserialize line L =
      .ok ({ headerPlant line with
              history := (L.takeWhile isEventLine).map CareEvent.deserialize },
        L.dropWhile isEventLine) := by
  rw [plant_deserialize_following]
  unfold headerDecodes at h
  unfold headerPlant
  cases hd : Plant.deserialize line [] with
  | error e =>
    rw [hd] at h
    exact absurd h (by simp)
  | ok pr => simp [consumeEvents_eq]

/-- Event lines at the front are stepped over by the loading recursion. -/
theorem loadFrom_events (E R : List Str) (g : Garden) (hE : ∀ e ∈ E, isEventLine e = true) :
    loadFrom (E ++ R) g = loadFrom R g := by
  induction E with
  | nil => rfl
  | cons e es ih =>
    have he := isPlantLine_event e (hE e (List.mem_cons_self _ _))
    simp only [List.cons_append, loadFrom, he]
    exact ih (fun x hx => hE x (List.mem_cons_of_mem _ hx))

theorem loadFrom_dropWhile (L : List Str) (g : Garden) :
    loadFrom (L.dropWhile isEventLine) g = loadFrom L g := by
  conv_rhs => rw [← List.takeWhile_append_dropWhile isEventLine L]
  rw [loadFrom_events]
  intro e he
  exact (List.mem_takeWhile_imp he)

/-- The index loop with erasure computes the recursion on the remaining
lines, and `lines.size() - i` turns are enough for it to end. -/
theorem loadLoop_eq (fuel : Nat) (lines : List Str) (i : Nat) (g : Garden)
    (hfuel : lines.length - i ≤ fuel) :
    loadLoop fuel lines i g = some (loadFrom (lines.drop i) g) := by
  induction fuel generalizing lines i g with
  | zero =>
    have hi : ¬ i < lines.length := by omega
    rw [List.drop_of_length_le (by omega)]
    simp [loadLoop, hi, loadFrom]
  | succ fuel ih =>
    unfold loadLoop
    by_cases hi : i < lines.length
    · rw [dif_pos hi, List.drop_eq_getElem_cons hi]
      cases hp : isPlantLine lines[i]
      · simp only [loadFrom, hp]
        exact ih lines (i + 1) g (by omega)
      · simp only [loadFrom, hp, if_true]
        cases hd : Plant.deserialize lines[i] (lines.drop (i + 1)) with
        | error e => rfl
        | ok pr =>
          obtain ⟨p, rest⟩ := pr
          have hrest := (plant_deserialize_ok _ _ _ _ hd).2.2
          simp only
          have hlen : lines.length - (i + 1) - rest.length =
              ((lines.drop (i + 1)).takeWhile isEventLine).length := by
            have h1 := congrArg List.length
              (List.takeWhile_append_dropWhile isEventLine (lines.drop (i + 1)))
            rw [List.length_append, ← hrest, List.length_drop] at h1
            omega
          rw [ih _ (i + 1) _ (by
            have := eraseTimes_length (lines.length - (i + 1) - rest.length) (i + 1) lines
            omega)]
          rw [eraseTimes_drop, hlen, ← List.drop_drop, ← dropWhile_eq_drop, loadFrom_dropWhile]
    · rw [dif_neg hi, List.drop_of_length_le (by omega)]
      rfl

/-- `loadFromFile` always ends: it returns the result of the recursion on the
lines read from the file, started with no plant and `next_id = 1`. -/
theorem loadFromFile_eq (g0 : Garden) (content : Str) :
    g0.loadFromFile content = some (loadFrom (readLines content [] []) ⟨[], 1⟩) := by
  unfold Garden.loadFromFile
  simp only
  rw [loadLoop_eq _ _ 0 _ (by omega)]
  rfl

/-! ## Loading a file of records -/

theorem isPlantLine_ne_nil (l : Str) (h : isPlantLine l = true) : l ≠ [] := by
  intro hl
  rw [hl] at h
  exact absurd h (by decide)

theorem isEventLine_ne_nil (l : Str) (h : isEventLine l = true) : l ≠ [] := by
  intro hl
  rw [hl] at h
  exact absurd h (by decide)

theorem isEventLine_of_isPlantLine (l : Str) (h : isPlantLine l = true) :
    isEventLine l = false := by
  cases he : isEventLine l
  · rfl
  · rw [isPlantLine_event l he] at h
    exact absurd h (by decide)

theorem takeWhile_events_append (E R : List Str) (hE : ∀ e ∈ E, isEventLine e = true)
    (hR : ∀ l ∈ R.head?, isEventLine l = false) :
    (E ++ R).takeWhile isEventLine = E := by
  induction E with
  | nil =>
    cases R with
    | nil => rfl
    | cons l ls =>
      have hl : isEventLine l = false := hR l (by simp)
      simp [List.takeWhile_cons, hl]
  | cons e es ih =>
    have he := hE e (List.mem_cons_self _ _)
    simp only [List.cons_append, List.takeWhile_cons, he, if_true]
    rw [ih (fun x hx => hE x (List.mem_cons_of_mem _ hx))]

theorem recordLines_head (records : List Record) (hwf : ∀ r ∈ records, r.wellFormed) :
    ∀ l ∈ ((recordLines records).map stripCR).head?, isEventLine l = false := by
  cases records with
  | nil => simp [recordLines]
  | cons r rs =>
    intro l hl
    simp only [recordLines, List.map_cons, List.head?_cons, Option.mem_def,
      Option.some.injEq] at hl
    rw [← hl]
    exact isEventLine_of_isPlantLine _ (hwf r (List.mem_cons_self _ _)).2.1

/-- Every line of well-formed records has no line feed and, once stripped, is
not empty. -/
theorem recordLines_clean (records : List Record) (hwf : ∀ r ∈ records, r.wellFormed) :
    ∀ l ∈ recordLines records, '\n' ∉ l ∧ stripCR l ≠ [] := by
  induction records with
  | nil => simp [recordLines]
  | cons r rs ih =>
    have hr := hwf r (List.mem_cons_self _ _)
    have hrs := ih (fun x hx => hwf x (List.mem_cons_of_mem _ hx))
    intro l hl
    simp only [recordLines, List.mem_cons, List.mem_append] at hl
    rcases hl with hl | hl | hl
    · rw [hl]
      exact ⟨hr.1, isPlantLine_ne_nil _ hr.2.1⟩
    · exact ⟨(hr.2.2.2 l hl).1, isEventLine_ne_nil _ (hr.2.2.2 l hl).2⟩
    · exact hrs l hl

/-- The loading recursion on the stripped lines of well-formed records
appends one plant per record, each with its own events. -/
theorem loadFrom_records (records : List Record) (g : Garden)
    (hwf : ∀ r ∈ records, r.wellFormed) :
    ∃ n, loadFrom ((recordLines records).map stripCR) g =
      .ok ⟨g.plants ++ records.map Record.decode, n⟩ := by
  induction records generalizing g with
  | nil => exact ⟨g.next_id, by simp [recordLines, loadFrom]⟩
  | cons r rs ih =>
    have hr := hwf r (List.mem_cons_self _ _)
    have hrs : ∀ x ∈ rs, x.wellFormed := fun x hx => hwf x (List.mem_cons_of_mem _ hx)
    have hE : ∀ e ∈ r.events.map stripCR, isEventLine e = true := by
      intro e he
      obtain ⟨l, hl, rfl⟩ := List.mem_map.mp he
      exact (hr.2.2.2 l hl).2
    have htake := takeWhile_events_append (r.events.map stripCR)
      ((recordLines rs).map stripCR) hE (recordLines_head rs hrs)
    simp only [recordLines, List.map_cons, List.map_append, loadFrom, hr.2.1, if_true]
    rw [plant_deserialize_of_headerDecodes _ _ hr.2.2.1]
    simp only
    rw [loadFrom_events _ _ _ hE, htake]
    obtain ⟨n, hn⟩ := ih _ hrs
    refine ⟨n, ?_⟩
    rw [hn]
    simp [Record.decode, List.map_map, Function.comp_def]

/-- Loading the file made of well-formed records returns: one plant per
record, in file order. -/
theorem loadFromFile_fileOf (g0 : Garden) (records : List Record)
    (hwf : ∀ r ∈ records, r.wellFormed) :
    ∃ n, g0.loadFromFile (fileOf records) = some (.ok ⟨records.map Record.decode, n⟩) := by
  have hclean := recordLines_clean records hwf
  have hfilter : ((recordLines records).map stripCR).filter (fun l => decide (l ≠ [])) =
      (recordLines records).map stripCR := by
    rw [List.filter_eq_self]
    intro l hl
    obtain ⟨x, hx, rfl⟩ := List.mem_map.mp hl
    simpa using (hclean x hx).2
  obtain ⟨n, hn⟩ := loadFrom_records records ⟨[], 1⟩ hwf
  refine ⟨n, ?_⟩
  rw [loadFromFile_eq, fileOf, readLines_joinLines _ _ (fun l hl => (hclean l hl).1),
    List.nil_append, hfilter, hn]
  rfl

/-- C3: for every file made of `k ≥ 0` well-formed records (a decodable plant
header line followed by the record's own event lines), `loadFromFile` returns
exactly `k` plants, in file order, and the plant of each record has as
history the decodes of that record's event lines, in their order, and
nothing else. -/
theorem load_event_ownership (g0 : Garden) (records : List Record)
    (hwf : ∀ r ∈ records, r.wellFormed) :
    ∃ g, g0.loadFromFile (fileOf records) = some (.ok g) ∧
      g.plants.length = records.length ∧
      g.plants = records.map Record.decode ∧
      g.plants.map Plant.history =
        records.map (fun r => r.events.map (fun l => CareEvent.deserialize (stripCR l))) := by
  obtain ⟨n, hn⟩ := loadFromFile_fileOf g0 records hwf
  refine ⟨_, hn, by simp, rfl, ?_⟩
  simp [Record.decode, List.map_map, Function.comp_def]

set_option maxRecDepth 100000 in
/-- Witness of C3: two plant records with two event lines each give two
history entries per plant, each plant with its own events in order. -/
theorem load_event_ownership_witness :
    (∀ r ∈ [Record.mk "PLANT|1|Fern|Boston|2024-01-01|12|shade|7|30".toList
          ["EVENT|water|2024-01-02|a".toList, "EVENT|fertilize|2024-01-03|b".toList],
        Record.mk "PLANT|2|Ivy|Hedera|2024-02-01|9|sun|3|0".toList
          ["EVENT|water|2024-02-02|c".toList, "EVENT|water|2024-02-05|d".toList]],
      r.wellFormed) ∧
    Garden.fresh.loadFromFile
      ("PLANT|1|Fern|Boston|2024-01-01|12|shade|7|30\nEVENT|water|2024-01-02|a\n".toList ++
       "EVENT|fertilize|2024-01-03|b\nPLANT|2|Ivy|Hedera|2024-02-01|9|sun|3|0\n".toList ++
       "EVENT|water|2024-02-02|c\nEVENT|water|2024-02-05|d\n".toList) =
      some (.ok ⟨[⟨1, "Fern".toList, "Boston".toList, "2024-01-01".toList, 12, "shade".toList,
          ⟨7⟩, ⟨30⟩, [⟨"water".toList, "2024-01-02".toList, "a".toList⟩,
            ⟨"fertilize".toList, "2024-01-03".toList, "b".toList⟩]⟩,
        ⟨2, "Ivy".toList, "Hedera".toList, "2024-02-01".toList, 9, "sun".toList,
          ⟨3⟩, ⟨0⟩, [⟨"water".toList, "2024-02-02".toList, "c".toList⟩,
            ⟨"water".toList, "2024-02-05".toList, "d".toList⟩]⟩], 3⟩) ∧
    ∃ g, Garden.fresh.loadFromFile
        (fileOf [Record.mk "PLANT|1|Fern|Boston|2024-01-01|12|shade|7|30".toList
            ["EVENT|water|2024-01-02|a".toList, "EVENT|fertilize|2024-01-03|b".toList],
          Record.mk "PLANT|2|Ivy|Hedera|2024-02-01|9|sun|3|0".toList
            ["EVENT|water|2024-02-02|c".toList, "EVENT|water|2024-02-05|d".toList]]) =
          some (.ok g) ∧
      g.plants.length = 2 ∧
      g.plants =
        [Record.mk "PLANT|1|Fern|Boston|2024-01-01|12|shade|7|30".toList
            ["EVENT|water|2024-01-02|a".toList, "EVENT|fertilize|2024-01-03|b".toList],
          Record.mk "PLANT|2|Ivy|Hedera|2024-02-01|9|sun|3|0".toList
            ["EVENT|water|2024-02-02|c".toList,
              "EVENT|water|2024-02-05|d".toList]].map Record.decode ∧
      g.plants.map Plant.history =
        [[⟨"water".toList, "2024-01-02".toList, "a".toList⟩,
            ⟨"fertilize".toList, "2024-01-03".toList, "b".toList⟩],
          [⟨"water".toList, "2024-02-02".toList, "c".toList⟩,
            ⟨"water".toList, "2024-02-05".toList, "d".toList⟩]] :=
  ⟨by decide, by decide, load_event_ownership Garden.fresh _ (by decide)⟩

/-! ## Saving, then loading -/

theorem writeEvents_append (es : List CareEvent) (R : List Str) :
    writeEvents es ++ joinLines R = joinLines (es.map CareEvent.serialize ++ R) := by
  induction es with
  | nil => rfl
  | cons e es ih => simp [writeEvents, joinLines, ih]

/-- What `saveToFile` writes is the file of the plants' records. -/
theorem writePlants_eq (ps : List Plant) : writePlants ps = fileOf (ps.map Plant.record) := by
  induction ps with
  | nil => rfl
  | cons p ps ih =>
    unfold fileOf at ih
    simp [writePlants, fileOf, recordLines, joinLines, Plant.record, ih, writeEvents_append]

theorem plant_serialize_not_mem (p : Plant) (c : Char) (hd : isDigit c = false)
    (hm : c ≠ '-') (hb : c ≠ '|') (ht : c ∉ PLANT_TAG) (h1 : c ∉ p.name) (h2 : c ∉ p.species)
    (h3 : c ∉ p.planted) (h4 : c ∉ p.sunlight) : c ∉ p.serialize := by
  have hi : ∀ i : Int, c ∉ intToStr i := fun i => intToStr_not_mem i c hd hm
  simp [Plant.serialize, Schedule.serialize, hi, hb, ht, h1, h2, h3, h4]

theorem event_serialize_not_mem (e : CareEvent) (c : Char) (hb : c ≠ '|')
    (ht : c ∉ EVENT_TAG) (h1 : c ∉ e.type) (h2 : c ∉ e.date) (h3 : c ∉ e.notes) :
    c ∉ e.serialize := by
  simp [CareEvent.serialize, hb, ht, h1, h2, h3]

theorem plant_serialize_lf (p : Plant) (h : p.cleanTexts) : '\n' ∉ p.serialize :=
  plant_serialize_not_mem p '\n' (by decide) (by decide) (by decide) (by decide)
    h.1.2.1 h.2.1.2.1 h.2.2.1.2.1 h.2.2.2.1.2.1

theorem plant_serialize_cr (p : Plant) (h : p.cleanTexts) : '\r' ∉ p.serialize :=
  plant_serialize_not_mem p '\r' (by decide) (by decide) (by decide) (by decide)
    h.1.2.2 h.2.1.2.2 h.2.2.1.2.2 h.2.2.2.1.2.2

theorem event_serialize_lf (e : CareEvent)
    (h : cleanText e.type ∧ cleanText e.date ∧ cleanText e.notes) : '\n' ∉ e.serialize :=
  event_serialize_not_mem e '\n' (by decide) (by decide) h.1.2.1 h.2.1.2.1 h.2.2.2.1

theorem event_serialize_cr (e : CareEvent)
    (h : cleanText e.type ∧ cleanText e.date ∧ cleanText e.notes) : '\r' ∉ e.serialize :=
  event_serialize_not_mem e '\r' (by decide) (by decide) h.1.2.2 h.2.1.2.2 h.2.2.2.2

theorem headerDecodes_serialize (p : Plant) (hint : p.intsInRange) (h : p.cleanTexts) :
    headerDecodes p.serialize = true ∧ headerPlant p.serialize = { p with history := [] } := by
  unfold headerDecodes headerPlant
  rw [plant_deserialize_serialize_header p [] hint h.1.1 h.2.1.1 h.2.2.1.1 h.2.2.2.1.1]
  exact ⟨rfl, rfl⟩

/-- The record written for a representable plant with clean texts is well
formed. -/
theorem plant_record_wellFormed (p : Plant) (hint : p.intsInRange) (h : p.cleanTexts) :
    p.record.wellFormed := by
  have hs : stripCR p.serialize = p.serialize := stripCR_of_not_mem _ (plant_serialize_cr p h)
  refine ⟨plant_serialize_lf p h, ?_, ?_, ?_⟩
  · show isPlantLine (stripCR p.serialize) = true
    rw [hs]
    exact isPlantLine_serialize p
  · show headerDecodes (stripCR p.serialize) = true
    rw [hs]
    exact (headerDecodes_serialize p hint h).1
  · intro l hl
    obtain ⟨e, he, rfl⟩ := List.mem_map.mp hl
    have hc := h.2.2.2.2 e he
    rw [stripCR_of_not_mem _ (event_serialize_cr e hc)]
    exact ⟨event_serialize_lf e hc, isEventLine_serialize e⟩

/-- The record written for a representable plant with clean texts decodes to
the plant. -/
theorem record_decode (p : Plant) (hint : p.intsInRange) (h : p.cleanTexts) :
    p.record.decode = p := by
  have hs : stripCR p.serialize = p.serialize := stripCR_of_not_mem _ (plant_serialize_cr p h)
  have hall : ∀ e ∈ p.history, CareEvent.deserialize (stripCR e.serialize) = e := by
    intro e he
    have hc := h.2.2.2.2 e he
    rw [stripCR_of_not_mem _ (event_serialize_cr e hc)]
    exact event_deserialize_serialize e hc.1.1 hc.2.1.1 hc.2.2.2.1
  have hev : (p.history.map CareEvent.serialize).map
      (fun l => CareEvent.deserialize (stripCR l)) = p.history := by
    rw [List.map_map]
    have hcongr : p.history.map ((fun l => CareEvent.deserialize (stripCR l)) ∘
        CareEvent.serialize) = p.history.map (fun e => e) :=
      List.map_congr_left (fun e he => hall e he)
    rw [hcongr]
    simp
  unfold Record.decode Plant.record
  simp only [hs, (headerDecodes_serialize p hint h).2, hev]

/-- C2: for every store whose plants have `int` members in range and whose
text fields (name, species, planted, sunlight, and every event's type, date
and notes) hold no `'|'`, no line feed and no carriage return, loading what
`saveToFile` wrote returns, and yields the saved plants: the same plants in
the same order, every field equal, every history with the same events in the
same order and count. -/
theorem save_load_round_trip (g g0 : Garden) (hint : ∀ p ∈ g.plants, p.intsInRange)
    (hclean : ∀ p ∈ g.plants, p.cleanTexts) :
    ∃ g1, g0.loadFromFile g.saveToFile = some (.ok g1) ∧ g1.plants = g.plants := by
  have hwf : ∀ r ∈ g.plants.map Plant.record, r.wellFormed := by
    intro r hr
    obtain ⟨p, hp, rfl⟩ := List.mem_map.mp hr
    exact plant_record_wellFormed p (hint p hp) (hclean p hp)
  obtain ⟨n, hn⟩ := loadFromFile_fileOf g0 (g.plants.map Plant.record) hwf
  refine ⟨⟨(g.plants.map Plant.record).map Record.decode, n⟩, ?_, ?_⟩
  · rw [Garden.saveToFile, writePlants_eq]
    exact hn
  · show (g.plants.map Plant.record).map Record.decode = g.plants
    rw [List.map_map]
    have hcongr : g.plants.map (Record.decode ∘ Plant.record) = g.plants.map (fun p => p) :=
      List.map_congr_left (fun p hp => record_decode p (hint p hp) (hclean p hp))
    rw [hcongr]
    simp

set_option maxRecDepth 100000 in
/-- Witness of C2: a store of two plants, the first with two events (one with
empty notes), saved and loaded over a garden that held something else. -/
theorem save_load_round_trip_witness :
    (∀ p ∈ (Garden.mk [⟨4, "Fern".toList, "Boston fern".toList, "2024-01-01".toList, 12,
          "shade".toList, ⟨7⟩, ⟨30⟩, [⟨"water".toList, "2024-01-02".toList, []⟩,
            ⟨"fertilize".toList, "2024-01-03".toList, "half dose".toList⟩]⟩,
        ⟨2, "Ivy".toList, [], [], -1, [], ⟨0⟩, ⟨0⟩, []⟩] 9).plants, p.intsInRange) ∧
    (∀ p ∈ (Garden.mk [⟨4, "Fern".toList, "Boston fern".toList, "2024-01-01".toList, 12,
          "shade".toList, ⟨7⟩, ⟨30⟩, [⟨"water".toList, "2024-01-02".toList, []⟩,
            ⟨"fertilize".toList, "2024-01-03".toList, "half dose".toList⟩]⟩,
        ⟨2, "Ivy".toList, [], [], -1, [], ⟨0⟩, ⟨0⟩, []⟩] 9).plants, p.cleanTexts) ∧
    (Garden.mk [⟨4, "Fern".toList, "Boston fern".toList, "2024-01-01".toList, 12,
          "shade".toList, ⟨7⟩, ⟨30⟩, [⟨"water".toList, "2024-01-02".toList, []⟩,
            ⟨"fertilize".toList, "2024-01-03".toList, "half dose".toList⟩]⟩,
        ⟨2, "Ivy".toList, [], [], -1, [], ⟨0⟩, ⟨0⟩, []⟩] 9).saveToFile =
      ("PLANT|4|Fern|Boston fern|2024-01-01|12|shade|7|30\nEVENT|water|2024-01-02|\n".toList
        ++ "EVENT|fertilize|2024-01-03|half dose\nPLANT|2|Ivy|||-1||0|0\n".toList) ∧
    ∃ g1, (Garden.mk [⟨1, "Old".toList, [], [], 0, [], ⟨0⟩, ⟨0⟩, []⟩] 2).loadFromFile
        (Garden.mk [⟨4, "Fern".toList, "Boston fern".toList, "2024-01-01".toList, 12,
          "shade".toList, ⟨7⟩, ⟨30⟩, [⟨"water".toList, "2024-01-02".toList, []⟩,
            ⟨"fertilize".toList, "2024-01-03".toList, "half dose".toList⟩]⟩,
        ⟨2, "Ivy".toList, [], [], -1, [], ⟨0⟩, ⟨0⟩, []⟩] 9).saveToFile = some (.ok g1) ∧
      g1.plants = (Garden.mk [⟨4, "Fern".toList, "Boston fern".toList, "2024-01-01".toList, 12,
          "shade".toList, ⟨7⟩, ⟨30⟩, [⟨"water".toList, "2024-01-02".toList, []⟩,
            ⟨"fertilize".toList, "2024-01-03".toList, "half dose".toList⟩]⟩,
        ⟨2, "Ivy".toList, [], [], -1, [], ⟨0⟩, ⟨0⟩, []⟩] 9).plants :=
  ⟨by decide, by decide, by decide, save_load_round_trip _ _ (by decide) (by decide)⟩

/-! ## Care event codec -/

/-- C20: for every care event whose type and date hold no `'|'` and none of
whose three fields holds a line feed, decoding the event's line gives the
event back, in type, date and notes; the notes may be empty and may hold any
number of `'|'`. -/
theorem careEvent_round_trip (e : CareEvent) (htype : '|' ∉ e.type) (hdate : '|' ∉ e.date)
    (_htypeLF : '\n' ∉ e.type) (_hdateLF : '\n' ∉ e.date) (hnotesLF : '\n' ∉ e.notes) :
    CareEvent.deserialize e.serialize = e :=
  event_deserialize_serialize e htype hdate hnotesLF

/-- Witness of C20: notes holding two `'|'`, and empty notes. -/
theorem careEvent_round_trip_witness :
    (CareEvent.mk "water".toList "2024-01-02".toList "a|b|c".toList).serialize =
      "EVENT|water|2024-01-02|a|b|c".toList ∧
    CareEvent.deserialize
        (CareEvent.mk "water".toList "2024-01-02".toList "a|b|c".toList).serialize =
      CareEvent.mk "water".toList "2024-01-02".toList "a|b|c".toList ∧
    CareEvent.deserialize (CareEvent.mk "water".toList "2024-01-02".toList []).serialize =
      CareEvent.mk "water".toList "2024-01-02".toList [] :=
  ⟨by decide,
    careEvent_round_trip _ (by decide) (by decide) (by decide) (by decide) (by decide),
    careEvent_round_trip _ (by decide) (by decide) (by decide) (by decide) (by decide)⟩

/-! ## Schedule decoding -/

theorem dropWhile_space_append (ws rest : Str) (hws : ∀ c ∈ ws, isSpace c = true)
    (hrest : ∀ c ∈ rest.head?, isSpace c = false) :
    (ws ++ rest).dropWhile isSpace = rest := by
  induction ws with
  | nil =>
    cases rest with
    | nil => rfl
    | cons c cs =>
      have hc : isSpace c = false := hrest c (by simp)
      simp [List.dropWhile_cons, hc]
  | cons w ws ih =>
    have hw := hws w (List.mem_cons_self _ _)
    simp only [List.cons_append, List.dropWhile_cons, hw, if_true]
    exact ih (fun x hx => hws x (List.mem_cons_of_mem _ hx))

theorem takeWhile_digit_append (ds tl : Str) (hds : ∀ c ∈ ds, isDigit c = true)
    (htl : ∀ c ∈ tl.head?, isDigit c = false) :
    (ds ++ tl).takeWhile isDigit = ds := by
  induction ds with
  | nil =>
    cases tl with
    | nil => rfl
    | cons c cs =>
      have hc : isDigit c = false := htl c (by simp)
      simp [List.takeWhile_cons, hc]
  | cons d ds ih =>
    have hd := hds d (List.mem_cons_self _ _)
    simp only [List.cons_append, List.takeWhile_cons, hd, if_true]
    rw [ih (fun x hx => hds x (List.mem_cons_of_mem _ hx))]

theorem stoi_skip_space (ws body : Str) (hws : ∀ c ∈ ws, isSpace c = true)
    (hbody : ∀ c ∈ body.head?, isSpace c = false) : stoi (ws ++ body) = stoi body := by
  have h1 := dropWhile_space_append ws body hws hbody
  have h2 := dropWhile_space_append [] body (by simp) hbody
  rw [List.nil_append] at h2
  unfold stoi
  simp only [h1, h2]

theorem isDigit_not_space (c : Char) (hc : isDigit c = true) :
    isSpace c = false ∧ c ≠ '-' ∧ c ≠ '+' := by
  refine ⟨?_, ?_, ?_⟩
  · cases hs : isSpace c
    · rfl
    · exfalso
      simp only [isSpace, Bool.or_eq_true, decide_eq_true_eq] at hs
      rcases hs with ((((h | h) | h) | h) | h) | h <;> · rw [h] at hc; exact absurd hc (by decide)
  · intro h
    rw [h] at hc
    exact absurd hc (by decide)
  · intro h
    rw [h] at hc
    exact absurd hc (by decide)

/-- `std::stoi` on digits followed by text that does not start with a digit. -/
theorem stoi_unsigned (ds tl : Str) (hne : ds ≠ []) (hds : ∀ c ∈ ds, isDigit c = true)
    (htl : ∀ c ∈ tl.head?, isDigit c = false) :
    stoi (ds ++ tl) =
      if INT_MAX < (digitsVal ds : Int) then .error .out_of_range
      else .ok (digitsVal ds : Int) := by
  obtain ⟨c, cs, rfl⟩ := List.exists_cons_of_ne_nil hne
  have hc : isDigit c = true := hds c (List.mem_cons_self _ _)
  obtain ⟨hsp, hminus, hplus⟩ := isDigit_not_space c hc
  have hdrop : (c :: cs ++ tl).dropWhile isSpace = c :: cs ++ tl := by
    simp [List.dropWhile_cons, hsp]
  have hbody : (match (c :: cs ++ tl) with
      | '-' :: r => (true, r)
      | '+' :: r => (false, r)
      | _ => (false, c :: cs ++ tl)) = (false, c :: cs ++ tl) := by
    split
    · next h => exact absurd (List.cons.inj h).1 hminus
    · next h => exact absurd (List.cons.inj h).1 hplus
    · rfl
  have htw : (c :: cs ++ tl).takeWhile isDigit = c :: cs :=
    takeWhile_digit_append (c :: cs) tl hds htl
  have hmin : ¬ ((digitsVal (c :: cs) : Int) < INT_MIN) := by
    unfold INT_MIN
    omega
  unfold stoi
  simp only [hdrop, hbody, htw]
  simp [hmin]

/-- `std::stoi` on a sign, digits, and text that does not start with a digit. -/
theorem stoi_signed (sgn : Char) (ds tl : Str) (hsgn : sgn = '+' ∨ sgn = '-')
    (hne : ds ≠ []) (hds : ∀ c ∈ ds, isDigit c = true)
    (htl : ∀ c ∈ tl.head?, isDigit c = false) :
    stoi (sgn :: (ds ++ tl)) =
      if sgn = '-' then
        (if -(digitsVal ds : Int) < INT_MIN then .error .out_of_range
         else .ok (-(digitsVal ds : Int)))
      else
        (if INT_MAX < (digitsVal ds : Int) then .error .out_of_range
         else .ok (digitsVal ds : Int)) := by
  have htw : (ds ++ tl).takeWhile isDigit = ds := takeWhile_digit_append ds tl hds htl
  rcases hsgn with rfl | rfl
  · have hdrop : ('+' :: (ds ++ tl)).dropWhile isSpace = '+' :: (ds ++ tl) := by
      simp [List.dropWhile_cons, show isSpace '+' = false by decide]
    have hmin : ¬ ((digitsVal ds : Int) < INT_MIN) := by
      unfold INT_MIN
      omega
    unfold stoi
    simp only [hdrop, htw]
    simp [hne, hmin]
  · have hdrop : ('-' :: (ds ++ tl)).dropWhile isSpace = '-' :: (ds ++ tl) := by
      simp [List.dropWhile_cons, show isSpace '-' = false by decide]
    have hmax : ¬ (INT_MAX < -(digitsVal ds : Int)) := by
      unfold INT_MAX
      omega
    unfold stoi
    simp only [hdrop, htw]
    simp [hne, hmax]

/-- `std::stoi` rejects a text that starts with neither a sign nor a digit. -/
theorem stoi_no_digit (tl : Str)
    (htl : ∀ c ∈ tl.head?, isDigit c = false ∧ isSpace c = false ∧ c ≠ '+' ∧ c ≠ '-') :
    stoi tl = .error .invalid_argument := by
  cases tl with
  | nil => rfl
  | cons c cs =>
    obtain ⟨hd, hsp, hplus, hminus⟩ := htl c (by simp)
    have hdrop : (c :: cs).dropWhile isSpace = c :: cs := by simp [List.dropWhile_cons, hsp]
    have hbody : (match (c :: cs) with
        | '-' :: r => (true, r)
        | '+' :: r => (false, r)
        | _ => (false, c :: cs)) = (false, c :: cs) := by
      split
      · next h => exact absurd (List.cons.inj h).1 hminus
      · next h => exact absurd (List.cons.inj h).1 hplus
      · rfl
    have htw : (c :: cs).takeWhile isDigit = [] := by simp [List.takeWhile_cons, hd]
    unfold stoi
    simp only [hdrop, hbody, htw]
    simp

/-- `std::stoi` rejects a sign that no digit follows. -/
theorem stoi_sign_no_digit (sgn : Char) (tl : Str) (hsgn : sgn = '+' ∨ sgn = '-')
    (htl : ∀ c ∈ tl.head?, isDigit c = false) :
    stoi (sgn :: tl) = .error .invalid_argument := by
  have htw : tl.takeWhile isDigit = [] := by
    cases tl with
    | nil => rfl
    | cons c cs =>
      have hc : isDigit c = false := htl c (by simp)
      simp [List.takeWhile_cons, hc]
  rcases hsgn with rfl | rfl
  · have hdrop : ('+' :: tl).dropWhile isSpace = '+' :: tl := by
      simp [List.dropWhile_cons, show isSpace '+' = false by decide]
    unfold stoi
    simp only [hdrop, htw]
    simp
  · have hdrop : ('-' :: tl).dropWhile isSpace = '-' :: tl := by
      simp [List.dropWhile_cons, show isSpace '-' = false by decide]
    unfold stoi
    simp only [hdrop, htw]
    simp

/-- C17 (amended): `Schedule::deserialize` returns a schedule for every string
and never raises. Its `interval_days` is the integer that starts the text,
after optional white space and an optional sign, whatever follows that
integer (so `"7days"` gives 7), provided the integer fits `int`. It is 0 in
all other cases: an integer outside `int`, and a text with no integer at that
place (the empty string, `"abc"`, a sign with no digit after it). -/
theorem schedule_deserialize_spec :
    (∀ ws ds tl : Str, (∀ c ∈ ws, isSpace c = true) → ds ≠ [] →
      (∀ c ∈ ds, isDigit c = true) → (∀ c ∈ tl.head?, isDigit c = false) →
      (Schedule.deserialize (ws ++ (ds ++ tl))).interval_days =
        if (digitsVal ds : Int) ≤ INT_MAX then (digitsVal ds : Int) else 0) ∧
    (∀ (ws : Str) (sgn : Char) (ds tl : Str), (∀ c ∈ ws, isSpace c = true) →
      sgn = '+' ∨ sgn = '-' → ds ≠ [] →
      (∀ c ∈ ds, isDigit c = true) → (∀ c ∈ tl.head?, isDigit c = false) →
      (Schedule.deserialize (ws ++ sgn :: (ds ++ tl))).interval_days =
        if sgn = '-' then
          (if INT_MIN ≤ -(digitsVal ds : Int) then -(digitsVal ds : Int) else 0)
        else (if (digitsVal ds : Int) ≤ INT_MAX then (digitsVal ds : Int) else 0)) ∧
    (∀ ws tl : Str, (∀ c ∈ ws, isSpace c = true) →
      (∀ c ∈ tl.head?, isDigit c = false ∧ isSpace c = false ∧ c ≠ '+' ∧ c ≠ '-') →
      (Schedule.deserialize (ws ++ tl)).interval_days = 0) ∧
    (∀ (ws : Str) (sgn : Char) (tl : Str), (∀ c ∈ ws, isSpace c = true) →
      sgn = '+' ∨ sgn = '-' → (∀ c ∈ tl.head?, isDigit c = false) →
      (Schedule.deserialize (ws ++ sgn :: tl)).interval_days = 0) := by
  refine ⟨?_, ?_, ?_, ?_⟩
  · intro ws ds tl hws hne hds htl
    obtain ⟨c, cs, rfl⟩ := List.exists_cons_of_ne_nil hne
    have hc := (isDigit_not_space c (hds c (List.mem_cons_self _ _))).1
    rw [Schedule.deserialize, stoi_skip_space ws _ hws (by simpa using hc),
      stoi_unsigned _ tl (by simp) hds htl]
    by_cases hv : (digitsVal (c :: cs) : Int) ≤ INT_MAX
    · simp [hv, not_lt.mpr hv]
    · simp [hv, not_le.mp hv]
  · intro ws sgn ds tl hws hsgn hne hds htl
    have hsp : isSpace sgn = false := by
      rcases hsgn with rfl | rfl <;> decide
    rw [Schedule.deserialize, stoi_skip_space ws _ hws (by simpa using hsp),
      stoi_signed sgn ds tl hsgn hne hds htl]
    by_cases hs : sgn = '-'
    · by_cases hv : INT_MIN ≤ -(digitsVal ds : Int)
      · simp [hs, hv, not_lt.mpr hv]
      · simp [hs, hv, not_le.mp hv]
    · by_cases hv : (digitsVal ds : Int) ≤ INT_MAX
      · simp [hs, hv, not_lt.mpr hv]
      · simp [hs, hv, not_le.mp hv]
  · intro ws tl hws htl
    rw [Schedule.deserialize, stoi_skip_space ws tl hws (fun c hc => (htl c hc).2.1),
      stoi_no_digit tl htl]
  · intro ws sgn tl hws hsgn htl
    have hsp : isSpace sgn = false := by
      rcases hsgn with rfl | rfl <;> decide
    rw [Schedule.deserialize, stoi_skip_space ws _ hws (by simpa using hsp),
      stoi_sign_no_digit sgn tl hsgn htl]

/-- Witness of C17: `" 42 days"` gives 42 and `"-x"` gives 0, by the theorem;
the empty string, `"abc"` and a number beyond `int` give 0. -/
theorem schedule_deserialize_spec_witness :
    (Schedule.deserialize " 42 days".toList).interval_days = 42 ∧
    (Schedule.deserialize "-x".toList).interval_days = 0 ∧
    (Schedule.deserialize []).interval_days = 0 ∧
    (Schedule.deserialize "abc".toList).interval_days = 0 ∧
    (Schedule.deserialize "99999999999".toList).interval_days = 0 :=
  ⟨schedule_deserialize_spec.1 " ".toList "42".toList " days".toList (by decide) (by decide)
      (by decide) (by decide),
    schedule_deserialize_spec.2.2.2 [] '-' "x".toList (by decide) (by decide) (by decide),
    by decide, by decide, by decide⟩

/-- Counterexample to C17 as stated: `"7days"` is not the text of an integer,
and it decodes to 7, not 0. -/
theorem schedule_deserialize_counterexample :
    (Schedule.deserialize "7days".toList).interval_days = 7 ∧
    (Schedule.deserialize "7days".toList).interval_days ≠ 0 := by
  decide

/-! ## Postcondition of `addPlant` -/

/-- C15 (amended): for every garden whose `next_id` is an `int` other than
the largest one, 2147483647, and every plant `p`, `addPlant(p)` returns the
value `next_id` had before the call, increases `next_id` by exactly 1, makes
`plants` one element longer, the new last element being `p` in every field
and in history except that its id is the returned id, and leaves every
previously stored plant unchanged at its position. -/
theorem addPlant_postcondition (g : Garden) (p : Plant) (hrange : inIntRange g.next_id)
    (hmax : g.next_id ≠ INT_MAX) :
    (g.addPlant p).1 = g.next_id ∧
    (g.addPlant p).2.next_id = g.next_id + 1 ∧
    (g.addPlant p).2.plants.length = g.plants.length + 1 ∧
    (g.addPlant p).2.plants = g.plants ++ [{ p with id := (g.addPlant p).1 }] ∧
    (∀ i, i < g.plants.length → (g.addPlant p).2.plants[i]? = g.plants[i]?) := by
  have hstep : wrap32 (g.next_id + 1) = g.next_id + 1 := by
    apply wrap32_of_inIntRange
    unfold inIntRange INT_MIN INT_MAX at *
    constructor <;> omega
  refine ⟨rfl, hstep, ?_, rfl, ?_⟩
  · show (g.plants ++ [{ p with id := g.next_id }]).length = g.plants.length + 1
    simp
  · intro i hi
    show (g.plants ++ [{ p with id := g.next_id }])[i]? = g.plants[i]?
    exact List.getElem?_append_left hi

/-- Witness of C15: a plant carrying id 99 added to a garden that holds one
plant and has `next_id = 5`. -/
theorem addPlant_postcondition_witness :
    inIntRange (Garden.mk [⟨3, "Ivy".toList, [], [], 0, [], ⟨0⟩, ⟨0⟩, []⟩] 5).next_id ∧
    (Garden.mk [⟨3, "Ivy".toList, [], [], 0, [], ⟨0⟩, ⟨0⟩, []⟩] 5).addPlant
        ⟨99, "Fern".toList, [], [], 7, [], ⟨1⟩, ⟨2⟩, [⟨WATER, [], []⟩]⟩ =
      (5, Garden.mk [⟨3, "Ivy".toList, [], [], 0, [], ⟨0⟩, ⟨0⟩, []⟩,
        ⟨5, "Fern".toList, [], [], 7, [], ⟨1⟩, ⟨2⟩, [⟨WATER, [], []⟩]⟩] 6) ∧
    ((Garden.mk [⟨3, "Ivy".toList, [], [], 0, [], ⟨0⟩, ⟨0⟩, []⟩] 5).addPlant
        ⟨99, "Fern".toList, [], [], 7, [], ⟨1⟩, ⟨2⟩, [⟨WATER, [], []⟩]⟩).2.next_id = 5 + 1 :=
  ⟨by decide, by decide,
    (addPlant_postcondition (Garden.mk [⟨3, "Ivy".toList, [], [], 0, [], ⟨0⟩, ⟨0⟩, []⟩] 5)
      ⟨99, "Fern".toList, [], [], 7, [], ⟨1⟩, ⟨2⟩, [⟨WATER, [], []⟩]⟩
      (by decide) (by decide)).2.1⟩

/-- Counterexample to C15 as stated: with `next_id = 2147483647` the call
returns 2147483647 and leaves `next_id = -2147483648`, which is not the
previous value plus 1. -/
theorem addPlant_postcondition_counterexample :
    ((Garden.mk [] 2147483647).addPlant ⟨0, [], [], [], 0, [], ⟨0⟩, ⟨0⟩, []⟩).1 = 2147483647 ∧
    ((Garden.mk [] 2147483647).addPlant ⟨0, [], [], [], 0, [], ⟨0⟩, ⟨0⟩, []⟩).2.next_id =
      -2147483648 ∧
    ((Garden.mk [] 2147483647).addPlant ⟨0, [], [], [], 0, [], ⟨0⟩, ⟨0⟩, []⟩).2.next_id ≠
      (Garden.mk [] 2147483647).next_id + 1 := by
  decide

/-! ## Lines that the loader steps over -/

theorem stripCR_initial (l : Str) : stripCR l <+: l := by
  unfold stripCR
  split
  · exact List.dropLast_prefix l
  · exact List.prefix_refl l

/-- A tag found at the start of the stripped line is at the start of the
line. -/
theorem tag_of_stripCR (tag l : Str) (h : tag.isPrefixOf (stripCR l) = true) :
    tag.isPrefixOf l = true := by
  rw [ List.isPrefixOf_iff_prefix] at h ⊢
  exact h.trans (stripCR_initial l)

/-- A tag that does not end in a carriage return stays at the start of the
line when the line is stripped. -/
theorem stripCR_keeps_tag (tag l : Str) (htag : tag.getLast? ≠ some '\r')
    (h : tag.isPrefixOf l = true) : tag.isPrefixOf (stripCR l) = true := by
  rw [ List.isPrefixOf_iff_prefix] at h ⊢
  unfold stripCR
  split
  · next hcond =>
    have hlen : tag.length ≤ l.dropLast.length := by
      by_contra hgt
      have hle := h.length_le
      rw [List.length_dropLast] at hgt
      have heq : tag = l := h.eq_of_length (by omega)
      rw [heq] at htag
      exact htag hcond.2
    exact List.prefix_of_prefix_length_le h ( List.dropLast_prefix l) hlen
  · exact h

theorem isPlantLine_stripCR (l : Str) (h : isPlantLine l = true) :
    isPlantLine (stripCR l) = true :=
  stripCR_keeps_tag PLANT_TAG l (by decide) h

theorem isEventLine_stripCR (l : Str) (h : isEventLine l = true) :
    isEventLine (stripCR l) = true :=
  stripCR_keeps_tag EVENT_TAG l (by decide) h

theorem not_isPlantLine_stripCR (l : Str) (h : isPlantLine l = false) :
    isPlantLine (stripCR l) = false := by
  cases hs : isPlantLine (stripCR l)
  · rfl
  · rw [show isPlantLine l = true from tag_of_stripCR PLANT_TAG l hs] at h
    exact absurd h (by decide)

theorem not_isEventLine_stripCR (l : Str) (h : isEventLine l = false) :
    isEventLine (stripCR l) = false := by
  cases hs : isEventLine (stripCR l)
  · rfl
  · rw [show isEventLine l = true from tag_of_stripCR EVENT_TAG l hs] at h
    exact absurd h (by decide)

theorem loadFrom_cons (l : Str) (rest : List Str) (g : Garden) :
    loadFrom (l :: rest) g =
      if isPlantLine l then
        match Plant.deserialize l rest with
        | .error e => .error e
        | .ok (p, _) =>
          loadFrom rest ⟨g.plants ++ [p],
            if p.id ≥ g.next_id then wrap32 (p.id + 1) else g.next_id⟩
      else loadFrom rest g := by
  simp only [loadFrom]

/-- Lines that are no plant lines have no effect on the loading recursion. -/
theorem loadFrom_skip (X R : List Str) (g : Garden) (hX : ∀ l ∈ X, isPlantLine l = false) :
    loadFrom (X ++ R) g = loadFrom R g := by
  induction X with
  | nil => rfl
  | cons x xs ih =>
    have hx := hX x (List.mem_cons_self _ _)
    simp only [List.cons_append, loadFrom, hx]
    exact ih (fun y hy => hX y (List.mem_cons_of_mem _ hy))

theorem takeWhile_event_nil (R : List Str) (hR : ∀ l ∈ R.head?, isEventLine l = false) :
    R.takeWhile isEventLine = [] := by
  cases R with
  | nil => rfl
  | cons r rs =>
    have hr : isEventLine r = false := hR r (by simp)
    simp [List.takeWhile_cons, hr]

/-- The event run read after a plant line is the same with and without lines
inserted behind a line that is no event line, when what follows the inserted
lines does not start with an event line. -/
theorem takeWhile_event_insert (A X B : List Str) (hne : X ≠ [])
    (hX : ∀ l ∈ X.head?, isEventLine l = false) (hB : ∀ l ∈ B.head?, isEventLine l = false) :
    (A ++ (X ++ B)).takeWhile isEventLine = (A ++ B).takeWhile isEventLine := by
  induction A with
  | nil =>
    obtain ⟨x, xs, rfl⟩ := List.exists_cons_of_ne_nil hne
    rw [List.nil_append, List.nil_append, takeWhile_event_nil B hB,
      takeWhile_event_nil (x :: xs ++ B) (by simpa using hX)]
  | cons a as ih =>
    simp only [List.cons_append, List.takeWhile_cons, ih]

/-- Lines that are no plant lines, inserted behind a line that is no event
line and in front of a line that is no event line, change nothing to the
loading recursion. -/
theorem loadFrom_insert (A X B : List Str) (g : Garden) (hne : X ≠ [])
    (hplant : ∀ l ∈ X, isPlantLine l = false)
    (hX : ∀ l ∈ X.head?, isEventLine l = false) (hB : ∀ l ∈ B.head?, isEventLine l = false) :
    loadFrom (A ++ (X ++ B)) g = loadFrom (A ++ B) g := by
  induction A generalizing g with
  | nil => exact loadFrom_skip X B g hplant
  | cons a as ih =>
    rw [List.cons_append, List.cons_append, loadFrom_cons, loadFrom_cons]
    cases ha : isPlantLine a
    · simp only [Bool.false_eq_true, if_false]
      exact ih g
    · simp only [if_true]
      rw [plant_deserialize_following a (as ++ (X ++ B)),
        plant_deserialize_following a (as ++ B)]
      cases hd : Plant.deserialize a [] with
      | error e => rfl
      | ok pr =>
        simp only [consumeEvents_eq, List.nil_append,
          takeWhile_event_insert as X B hne hX hB]
        exact ih _

/-- Loading a file given by its lines: the loading recursion on the kept
lines, from an empty garden. -/
theorem loadFromFile_joinLines (g0 : Garden) (ls : List Str) (h : ∀ l ∈ ls, '\n' ∉ l) :
    g0.loadFromFile (joinLines ls) = some (loadFrom (keptLines ls) ⟨[], 1⟩) := by
  rw [loadFromFile_eq, readLines_joinLines ls [] h, List.nil_append]
  rfl

theorem keptLines_append (a b : List Str) : keptLines (a ++ b) = keptLines a ++ keptLines b := by
  simp [keptLines]

theorem keptLines_cons_of_ne (l : Str) (ls : List Str) (h : stripCR l ≠ []) :
    keptLines (l :: ls) = stripCR l :: keptLines ls := by
  simp [keptLines, List.filter_cons, h]

theorem keptLines_cons_of_blank (l : Str) (ls : List Str) (h : stripCR l = []) :
    keptLines (l :: ls) = keptLines ls := by
  simp [keptLines, List.filter_cons, h]

/-- Event lines are all kept, stripped, and stay event lines. -/
theorem keptLines_events (E : List Str) (hE : ∀ e ∈ E, isEventLine e = true) :
    keptLines E = E.map stripCR ∧ ∀ l ∈ keptLines E, isEventLine l = true := by
  induction E with
  | nil => exact ⟨rfl, by simp [keptLines]⟩
  | cons e es ih =>
    have he := isEventLine_stripCR e (hE e (List.mem_cons_self _ _))
    have hes := ih (fun x hx => hE x (List.mem_cons_of_mem _ hx))
    rw [keptLines_cons_of_ne e es (isEventLine_ne_nil _ he), hes.1]
    refine ⟨rfl, ?_⟩
    intro l hl
    rcases List.mem_cons.mp hl with hl | hl
    · rw [hl]
      exact he
    · rw [← hes.1] at hl
      exact hes.2 l hl

/-- C14: for all line sequences `A` and `B` where `B` is empty or begins with
a plant line, and every non-blank line `u` that starts with neither
`"PLANT|"` nor `"EVENT|"`, loading the file of the lines `A`, `u`, `B` has
the same outcome (the same plants, the same `next_id`, the same exception if
any) as loading the file of the lines `A`, `B`. -/
theorem load_unknown_line (g0 : Garden) (A B : List Str) (u : Str)
    (hlf : ∀ l ∈ A ++ [u] ++ B, '\n' ∉ l) (_hblank : u ≠ [])
    (hplant : isPlantLine u = false) (hevent : isEventLine u = false)
    (hB : B = [] ∨ ∃ b bs, B = b :: bs ∧ isPlantLine b = true) :
    g0.loadFromFile (joinLines (A ++ [u] ++ B)) = g0.loadFromFile (joinLines (A ++ B)) := by
  have hlf2 : ∀ l ∈ A ++ B, '\n' ∉ l := by
    intro l hl
    apply hlf l
    simp only [List.mem_append, List.mem_singleton] at hl ⊢
    rcases hl with hl | hl
    · exact Or.inl (Or.inl hl)
    · exact Or.inr hl
  have hBhead : ∀ l ∈ (keptLines B).head?, isEventLine l = false := by
    rcases hB with rfl | ⟨b, bs, rfl, hb⟩
    · simp [keptLines]
    · have hsb := isPlantLine_stripCR b hb
      rw [keptLines_cons_of_ne b bs (isPlantLine_ne_nil _ hsb)]
      intro l hl
      simp only [List.head?_cons, Option.mem_def, Option.some.injEq] at hl
      rw [← hl]
      exact isEventLine_of_isPlantLine _ hsb
  rw [loadFromFile_joinLines g0 _ hlf, loadFromFile_joinLines g0 _ hlf2, List.append_assoc,
    keptLines_append, keptLines_append, keptLines_append]
  by_cases hu : stripCR u = []
  · rw [keptLines_cons_of_blank u [] hu]
    rfl
  · rw [keptLines_cons_of_ne u [] hu]
    rw [loadFrom_insert (keptLines A) (stripCR u :: keptLines []) (keptLines B) _ (by simp)
      (by
        intro l hl
        have hl2 : l = stripCR u := by simpa [keptLines] using hl
        rw [hl2]
        exact not_isPlantLine_stripCR u hplant)
      (by
        intro l hl
        simp only [List.head?_cons, Option.mem_def, Option.some.injEq] at hl
        rw [← hl]
        exact not_isEventLine_stripCR u hevent)
      hBhead]

set_option maxRecDepth 100000 in
/-- Witness of C14: a comment line between two plant records. -/
theorem load_unknown_line_witness :
    Garden.fresh.loadFromFile (joinLines (["PLANT|1|Fern|s|2024-01-01|5|sun|7|3".toList,
        "EVENT|water|2024-01-02|a".toList] ++ ["# version 2".toList] ++
        ["PLANT|2|Ivy|t|2024-02-01|6|shade|0|0".toList, "EVENT|water|2024-02-02|b".toList])) =
      Garden.fresh.loadFromFile (joinLines (["PLANT|1|Fern|s|2024-01-01|5|sun|7|3".toList,
        "EVENT|water|2024-01-02|a".toList] ++
        ["PLANT|2|Ivy|t|2024-02-01|6|shade|0|0".toList, "EVENT|water|2024-02-02|b".toList])) ∧
    Garden.fresh.loadFromFile (joinLines (["PLANT|1|Fern|s|2024-01-01|5|sun|7|3".toList,
        "EVENT|water|2024-01-02|a".toList] ++ ["# version 2".toList] ++
        ["PLANT|2|Ivy|t|2024-02-01|6|shade|0|0".toList, "EVENT|water|2024-02-02|b".toList])) =
      some (.ok ⟨[⟨1, "Fern".toList, "s".toList, "2024-01-01".toList, 5, "sun".toList, ⟨7⟩, ⟨3⟩,
          [⟨"water".toList, "2024-01-02".toList, "a".toList⟩]⟩,
        ⟨2, "Ivy".toList, "t".toList, "2024-02-01".toList, 6, "shade".toList, ⟨0⟩, ⟨0⟩,
          [⟨"water".toList, "2024-02-02".toList, "b".toList⟩]⟩], 3⟩) :=
  ⟨load_unknown_line Garden.fresh _ _ _ (by decide) (by decide) (by decide) (by decide)
      (Or.inr ⟨_, _, rfl, by decide⟩),
    by decide⟩

/-- C19 (amended): for all line sequences `A` and `B` where the first
non-blank line of `B`, if there is one, is not an event line (so `B` may be
empty, hold only blank lines, or begin with blank lines), every non-blank
line `u` starting with neither `"PLANT|"` nor `"EVENT|"`, and every run `E`
of event lines, loading the lines `A`, `u`, `E`, `B` gives the same result as
loading the lines `A`, `B`; likewise loading `E` followed by any lines `R`
gives the same result as loading `R`. A line is blank when nothing is left of
it once a trailing carriage return is removed; `keptLines B` is `B` without
its blank lines, each line less its trailing carriage return. -/
theorem load_orphan_events (g0 : Garden) (A E B : List Str) (u : Str)
    (hlf : ∀ l ∈ A ++ [u] ++ E ++ B, '\n' ∉ l) (hblank : stripCR u ≠ [])
    (hplant : isPlantLine u = false) (hevent : isEventLine u = false)
    (hE : ∀ e ∈ E, isEventLine e = true)
    (hB : ∀ l ∈ (keptLines B).head?, isEventLine l = false) :
    g0.loadFromFile (joinLines (A ++ [u] ++ E ++ B)) = g0.loadFromFile (joinLines (A ++ B)) ∧
    ∀ R : List Str, (∀ l ∈ R, '\n' ∉ l) →
      g0.loadFromFile (joinLines (E ++ R)) = g0.loadFromFile (joinLines R) := by
  have hkE := keptLines_events E hE
  have hEplant : ∀ l ∈ keptLines E, isPlantLine l = false := fun l hl =>
    isPlantLine_event l (hkE.2 l hl)
  constructor
  · have hlf2 : ∀ l ∈ A ++ B, '\n' ∉ l := by
      intro l hl
      apply hlf l
      simp only [List.mem_append, List.mem_singleton] at hl ⊢
      rcases hl with hl | hl
      · exact Or.inl (Or.inl (Or.inl hl))
      · exact Or.inr hl
    rw [loadFromFile_joinLines g0 _ hlf, loadFromFile_joinLines g0 _ hlf2,
      List.append_assoc, List.append_assoc, keptLines_append, keptLines_append,
      keptLines_append, keptLines_append, keptLines_cons_of_ne u [] hblank,
      ← List.append_assoc (stripCR u :: keptLines []) (keptLines E) (keptLines B)]
    rw [loadFrom_insert (keptLines A) (stripCR u :: keptLines [] ++ keptLines E) (keptLines B) _
      (by simp)
      (by
        intro l hl
        have hl2 : l = stripCR u ∨ l ∈ keptLines E := by simpa [keptLines] using hl
        rcases hl2 with hl2 | hl2
        · rw [hl2]
          exact not_isPlantLine_stripCR u hplant
        · exact hEplant l hl2)
      (by
        intro l hl
        simp only [List.cons_append, List.head?_cons, Option.mem_def, Option.some.injEq] at hl
        rw [← hl]
        exact not_isEventLine_stripCR u hevent)
      hB]
  · intro R hR
    have hlfE : ∀ l ∈ E ++ R, '\n' ∉ l := by
      intro l hl
      rcases List.mem_append.mp hl with hl | hl
      · apply hlf l
        simp only [List.mem_append, List.mem_singleton]
        exact Or.inl (Or.inr hl)
      · exact hR l hl
    rw [loadFromFile_joinLines g0 _ hlfE, loadFromFile_joinLines g0 _ hR, keptLines_append,
      loadFrom_skip _ _ _ hEplant]

set_option maxRecDepth 100000 in
/-- Witness of C19: an unknown line and an event line after it, in front of
an empty line and a plant record; the event line after the unknown line is
attached to no plant. -/
theorem load_orphan_events_witness :
    Garden.fresh.loadFromFile (joinLines (["PLANT|1|Fern|s|2024-01-01|5|sun|7|3".toList,
        "EVENT|water|2024-01-02|a".toList] ++ ["# note".toList] ++
        ["EVENT|water|2024-01-09|lost".toList] ++
        [[], "PLANT|2|Ivy|t|2024-02-01|6|shade|0|0".toList])) =
      Garden.fresh.loadFromFile (joinLines (["PLANT|1|Fern|s|2024-01-01|5|sun|7|3".toList,
        "EVENT|water|2024-01-02|a".toList] ++
        [[], "PLANT|2|Ivy|t|2024-02-01|6|shade|0|0".toList])) ∧
    Garden.fresh.loadFromFile (joinLines (["PLANT|1|Fern|s|2024-01-01|5|sun|7|3".toList,
        "EVENT|water|2024-01-02|a".toList] ++ ["# note".toList] ++
        ["EVENT|water|2024-01-09|lost".toList] ++
        [[], "PLANT|2|Ivy|t|2024-02-01|6|shade|0|0".toList])) =
      some (.ok ⟨[⟨1, "Fern".toList, "s".toList, "2024-01-01".toList, 5, "sun".toList, ⟨7⟩, ⟨3⟩,
          [⟨"water".toList, "2024-01-02".toList, "a".toList⟩]⟩,
        ⟨2, "Ivy".toList, "t".toList, "2024-02-01".toList, 6, "shade".toList, ⟨0⟩, ⟨0⟩,
          []⟩], 3⟩) :=
  ⟨(load_orphan_events Garden.fresh _ _ _ _ (by decide) (by decide) (by decide) (by decide)
      (by decide) (by decide)).1,
    by decide⟩

set_option maxRecDepth 100000 in
/-- Counterexample to C19 as stated: `B` begins with an empty line, which is
not an event line, and goes on with an event line. With `u` and `E` in front
of it that event line is attached to no plant; without them it is attached to
the plant of `A`. -/
theorem load_orphan_events_counterexample :
    Garden.fresh.loadFromFile (joinLines (["PLANT|1|Fern|s|2024-01-01|5|sun|7|3".toList] ++
        ["# note".toList] ++ ["EVENT|water|2024-01-09|x".toList] ++
        [[], "EVENT|water|2024-01-10|y".toList])) =
      some (.ok ⟨[⟨1, "Fern".toList, "s".toList, "2024-01-01".toList, 5, "sun".toList, ⟨7⟩, ⟨3⟩,
          []⟩], 2⟩) ∧
    Garden.fresh.loadFromFile (joinLines (["PLANT|1|Fern|s|2024-01-01|5|sun|7|3".toList] ++
        [[], "EVENT|water|2024-01-10|y".toList])) =
      some (.ok ⟨[⟨1, "Fern".toList, "s".toList, "2024-01-01".toList, 5, "sun".toList, ⟨7⟩, ⟨3⟩,
          [⟨"water".toList, "2024-01-10".toList, "y".toList⟩]⟩], 2⟩) ∧
    Garden.fresh.loadFromFile (joinLines (["PLANT|1|Fern|s|2024-01-01|5|sun|7|3".toList] ++
        ["# note".toList] ++ ["EVENT|water|2024-01-09|x".toList] ++
        [[], "EVENT|water|2024-01-10|y".toList])) ≠
      Garden.fresh.loadFromFile (joinLines (["PLANT|1|Fern|s|2024-01-01|5|sun|7|3".toList] ++
        [[], "EVENT|water|2024-01-10|y".toList])) := by
  decide

/-! ## Blank lines and carriage returns -/

theorem stripCR_concat_cr (l : Str) : stripCR (l ++ ['\r']) = l := by
  unfold stripCR
  rw [if_pos ⟨by simp, List.getLast?_concat l⟩, List.dropLast_concat]

theorem stripCR_of_last_ne (l : Str) (h : l.getLast? ≠ some '\r') : stripCR l = l := by
  unfold stripCR
  rw [if_neg (fun hc => h hc.2)]

theorem decorated_keptLines (ls ls' : List Str) (h : Decorated ls ls') :
    keptLines ls' = keptLines ls := by
  induction h with
  | done => rfl
  | keep l _ ih =>
    by_cases hl : stripCR l = []
    · rw [keptLines_cons_of_blank l _ hl, keptLines_cons_of_blank l _ hl, ih]
    · rw [keptLines_cons_of_ne l _ hl, keptLines_cons_of_ne l _ hl, ih]
  | addCR l hlast _ ih =>
    have h1 : stripCR (l ++ ['\r']) = l := stripCR_concat_cr l
    have h2 : stripCR l = l := stripCR_of_last_ne l hlast
    by_cases hl : l = []
    · rw [keptLines_cons_of_blank _ _ (h1.trans hl), keptLines_cons_of_blank _ _ (h2.trans hl),
        ih]
    · rw [keptLines_cons_of_ne _ _ (by rw [h1]; exact hl),
        keptLines_cons_of_ne _ _ (by rw [h2]; exact hl), h1, h2, ih]
  | blank _ ih => rw [keptLines_cons_of_blank [] _ (by decide), ih]
  | crOnly _ ih => rw [keptLines_cons_of_blank ['\r'] _ (by decide), ih]

theorem decorated_no_lf (ls ls' : List Str) (h : Decorated ls ls')
    (hlf : ∀ l ∈ ls, '\n' ∉ l) : ∀ l ∈ ls', '\n' ∉ l := by
  induction h with
  | done => exact hlf
  | keep l _ ih =>
    intro x hx
    rcases List.mem_cons.mp hx with hx | hx
    · rw [hx]
      exact hlf l (List.mem_cons_self _ _)
    · exact ih (fun y hy => hlf y (List.mem_cons_of_mem _ hy)) x hx
  | addCR l _ _ ih =>
    intro x hx
    rcases List.mem_cons.mp hx with hx | hx
    · rw [hx]
      have := hlf l (List.mem_cons_self _ _)
      simp [this]
    · exact ih (fun y hy => hlf y (List.mem_cons_of_mem _ hy)) x hx
  | blank _ ih =>
    intro x hx
    rcases List.mem_cons.mp hx with hx | hx
    · rw [hx]
      simp
    · exact ih hlf x hx
  | crOnly _ ih =>
    intro x hx
    rcases List.mem_cons.mp hx with hx | hx
    · rw [hx]
      decide
    · exact ih hlf x hx

/-- Reading a file whose last line has no line feed: the last line counts as
a line (and is dropped, like any line, when nothing is left of it). -/
theorem readLines_unterminated (ls : List Str) (last : Str) (acc : List Str)
    (h : ∀ l ∈ ls, '\n' ∉ l) (hlast : '\n' ∉ last) :
    readLines (joinLines ls ++ last) [] acc = acc ++ keptLines (ls ++ [last]) := by
  induction ls generalizing acc with
  | nil =>
    have hrun : ∀ (t cur : Str), '\n' ∉ t →
        readLines t cur acc = if cur ++ t = [] then acc else pushLine acc (cur ++ t) := by
      intro t
      induction t with
      | nil =>
        intro cur _
        simp [readLines]
      | cons c cs ih =>
        intro cur hc
        have hne : c ≠ '\n' := fun hcn => hc (hcn ▸ List.mem_cons_self _ _)
        have hcs : '\n' ∉ cs := fun hm => hc (List.mem_cons_of_mem _ hm)
        simp only [readLines, if_neg hne]
        rw [ih (cur ++ [c]) hcs]
        simp
    rw [joinLines, List.nil_append, hrun last [] hlast]
    by_cases hl : last = []
    · subst hl
      simp [keptLines, stripCR]
    · by_cases hs : stripCR last = []
      · simp [hl, pushLine, hs, keptLines]
      · simp [hl, pushLine, hs, keptLines]
  | cons l ls ih =>
    have hl := h l (List.mem_cons_self _ _)
    have hls : ∀ x ∈ ls, '\n' ∉ x := fun x hx => h x (List.mem_cons_of_mem _ hx)
    simp only [joinLines, List.cons_append, List.append_assoc]
    rw [readLines_line l _ [] acc hl, ih _ hls]
    by_cases hs : stripCR l = []
    · rw [keptLines_cons_of_blank l _ hs]
      simp [pushLine, hs]
    · rw [keptLines_cons_of_ne l _ hs]
      simp [pushLine, hs]

/-- C18: for every file (lines `ls`, each ended by a line feed, then a last
line `last` without line feed, empty when the file ends with a line feed),
inserting empty lines or lines holding only a carriage return at any
positions, also between a plant line and its event lines, and appending one
carriage return to any line that does not end in one, gives a file with the
same `loadFromFile` result: same plants, same histories, same `next_id`, same
exception if any. -/
theorem load_blank_lines_and_cr (g0 : Garden) (ls ls' : List Str) (last last' : Str)
    (hdec : Decorated (ls ++ [last]) (ls' ++ [last']))
    (hlf : ∀ l ∈ ls ++ [last], '\n' ∉ l) :
    g0.loadFromFile (joinLines ls' ++ last') = g0.loadFromFile (joinLines ls ++ last) := by
  have hlf' := decorated_no_lf _ _ hdec hlf
  rw [loadFromFile_eq, loadFromFile_eq,
    readLines_unterminated ls' last' [] (fun l hl => hlf' l (List.mem_append_left _ hl))
      (hlf' last' (by simp)),
    readLines_unterminated ls last [] (fun l hl => hlf l (List.mem_append_left _ hl))
      (hlf last (by simp)),
    decorated_keptLines _ _ hdec]

set_option maxRecDepth 100000 in
/-- Witness of C18: a file with line feeds, and the same file with CRLF line
ends, an empty line between the plant line and its event line, and a line
holding only a carriage return at the end. -/
theorem load_blank_lines_and_cr_witness :
    Garden.fresh.loadFromFile
        ("PLANT|1|Fern|s|2024-01-01|5|sun|7|3\r\n\nEVENT|water|2024-01-02|a\r\n\r\n".toList
          ++ []) =
      Garden.fresh.loadFromFile
        ("PLANT|1|Fern|s|2024-01-01|5|sun|7|3\nEVENT|water|2024-01-02|a\n".toList ++ []) ∧
    Garden.fresh.loadFromFile
        ("PLANT|1|Fern|s|2024-01-01|5|sun|7|3\r\n\nEVENT|water|2024-01-02|a\r\n\r\n".toList
          ++ []) =
      some (.ok ⟨[⟨1, "Fern".toList, "s".toList, "2024-01-01".toList, 5, "sun".toList, ⟨7⟩, ⟨3⟩,
          [⟨"water".toList, "2024-01-02".toList, "a".toList⟩]⟩], 2⟩) :=
  ⟨load_blank_lines_and_cr Garden.fresh
      ["PLANT|1|Fern|s|2024-01-01|5|sun|7|3".toList, "EVENT|water|2024-01-02|a".toList]
      ["PLANT|1|Fern|s|2024-01-01|5|sun|7|3\r".toList, [], "EVENT|water|2024-01-02|a\r".toList,
        "\r".toList] [] []
      (Decorated.addCR _ (by decide) (Decorated.blank (Decorated.addCR _ (by decide)
        (Decorated.crOnly (Decorated.keep [] Decorated.done)))))
      (by decide),
    by decide⟩

/-! ## The counter after a load -/

theorem stoi_range (s : Str) (v : Int) (h : stoi s = .ok v) : inIntRange v := by
  have key : ∀ w : Int,
      (if w < INT_MIN ∨ INT_MAX < w then (Except.error Exn.out_of_range : Except Exn Int)
        else .ok w) = .ok v → inIntRange v := by
    intro w hw
    split at hw
    · cases hw
    · next hr =>
      cases hw
      unfold inIntRange
      constructor <;> omega
  unfold stoi at h
  simp only at h
  split at h
  · cases h
  · exact key _ h

/-- The id of a decoded plant is what `std::stoi` returned, an `int`. -/
theorem plant_deserialize_id_range (line : Str) (L : List Str) (p : Plant) (rest : List Str)
    (h : Plant.deserialize line L = .ok (p, rest)) : inIntRange p.id := by
  unfold Plant.deserialize at h
  simp only at h
  split at h
  · cases h
  · next id hid =>
    split at h
    · cases h
    · simp only [Except.ok.injEq, Prod.mk.injEq] at h
      rw [← h.1]
      exact stoi_range _ _ hid

/-- The loading recursion appends plants with `int` ids and updates the
counter once per plant, in order. -/
theorem loadFrom_bump (L : List Str) (g g1 : Garden) (h : loadFrom L g = .ok g1) :
    ∃ ps, g1.plants = g.plants ++ ps ∧ g1.next_id = bumpNext g.next_id ps ∧
      ∀ p ∈ ps, inIntRange p.id := by
  induction L generalizing g with
  | nil =>
    simp only [loadFrom, Except.ok.injEq] at h
    exact ⟨[], by simp [h], by simp [bumpNext, h], by simp⟩
  | cons l rest ih =>
    rw [loadFrom_cons] at h
    cases hl : isPlantLine l
    · rw [hl] at h
      simp only [Bool.false_eq_true, if_false] at h
      exact ih g h
    · rw [hl] at h
      simp only [if_true] at h
      cases hd : Plant.deserialize l rest with
      | error e =>
        rw [hd] at h
        cases h
      | ok pr =>
        obtain ⟨p, r⟩ := pr
        rw [hd] at h
        simp only at h
        obtain ⟨ps, hps, hnext, hrange⟩ := ih _ h
        refine ⟨p :: ps, ?_, ?_, ?_⟩
        · rw [hps]
          simp
        · rw [hnext]
          rfl
        · intro q hq
          rcases List.mem_cons.mp hq with hq | hq
          · rw [hq]
            exact plant_deserialize_id_range _ _ _ _ hd
          · exact hrange q hq

/-- The counter after the updates, when no id is the largest `int`: it is not
below its start, it is above every id, and it is its start or some id
plus 1. -/
theorem bumpNext_spec (ps : List Plant) (n : Int)
    (h : ∀ p ∈ ps, inIntRange p.id ∧ p.id ≠ INT_MAX) :
    n ≤ bumpNext n ps ∧ (∀ p ∈ ps, p.id < bumpNext n ps) ∧
      (bumpNext n ps = n ∨ ∃ p ∈ ps, bumpNext n ps = p.id + 1) := by
  induction ps generalizing n with
  | nil => simp [bumpNext]
  | cons q qs ih =>
    have hq := h q (List.mem_cons_self _ _)
    have hqs : ∀ p ∈ qs, inIntRange p.id ∧ p.id ≠ INT_MAX := fun p hp =>
      h p (List.mem_cons_of_mem _ hp)
    have hw : wrap32 (q.id + 1) = q.id + 1 := by
      apply wrap32_of_inIntRange
      have h1 := hq.1
      have h2 := hq.2
      unfold inIntRange INT_MIN INT_MAX at *
      constructor <;> omega
    unfold bumpNext
    by_cases hge : q.id ≥ n
    · rw [if_pos hge, hw]
      obtain ⟨h1, h2, h3⟩ := ih (q.id + 1) hqs
      refine ⟨by omega, ?_, ?_⟩
      · intro p hp
        rcases List.mem_cons.mp hp with hp | hp
        · rw [hp]
          omega
        · exact h2 p hp
      · rcases h3 with h3 | ⟨p, hp, h3⟩
        · exact Or.inr ⟨q, List.mem_cons_self _ _, h3⟩
        · exact Or.inr ⟨p, List.mem_cons_of_mem _ hp, h3⟩
    · rw [if_neg hge]
      obtain ⟨h1, h2, h3⟩ := ih n hqs
      refine ⟨h1, ?_, ?_⟩
      · intro p hp
        rcases List.mem_cons.mp hp with hp | hp
        · rw [hp]
          omega
        · exact h2 p hp
      · rcases h3 with h3 | ⟨p, hp, h3⟩
        · exact Or.inl h3
        · exact Or.inr ⟨p, List.mem_cons_of_mem _ hp, h3⟩

/-- A successful load yields the plants read from the file, all with `int`
ids, and the counter updated from 1 once per plant. -/
theorem loadFromFile_bump (g0 g : Garden) (content : Str)
    (h : g0.loadFromFile content = some (.ok g)) :
    g.next_id = bumpNext 1 g.plants ∧ ∀ p ∈ g.plants, inIntRange p.id := by
  rw [loadFromFile_eq] at h
  simp only [Option.some.injEq] at h
  obtain ⟨ps, hps, hnext, hrange⟩ := loadFrom_bump _ _ _ h
  simp only [List.nil_append] at hps
  rw [hps]
  exact ⟨hnext, hrange⟩

/-- C11 (amended): after every successful `loadFromFile` in which no loaded id
is 2147483647, whatever the store held before the call, `next_id` is 1 when
no plant was loaded and otherwise the larger of 1 and 1 + the maximum id
among the loaded plants; so it is 1 + the maximum id when that maximum is not
negative, and 1 when every loaded id is negative. -/
theorem load_next_id (g0 g : Garden) (content : Str)
    (hload : g0.loadFromFile content = some (.ok g))
    (hmax : ∀ p ∈ g.plants, p.id ≠ INT_MAX) :
    (g.plants = [] → g.next_id = 1) ∧
    ∀ p ∈ g.plants, (∀ q ∈ g.plants, q.id ≤ p.id) → g.next_id = max 1 (p.id + 1) := by
  obtain ⟨hnext, hrange⟩ := loadFromFile_bump g0 g content hload
  obtain ⟨h1, h2, h3⟩ := bumpNext_spec g.plants 1 (fun p hp => ⟨hrange p hp, hmax p hp⟩)
  rw [← hnext] at h1 h2 h3
  constructor
  · intro hnil
    rw [hnext, hnil]
    rfl
  · intro p hp hpmax
    have hlt := h2 p hp
    rcases h3 with h3 | ⟨q, hq, h3⟩
    · rw [h3]
      omega
    · have hle := hpmax q hq
      omega

set_option maxRecDepth 100000 in
/-- Witness of C11: ids 4 and 2 are loaded over a garden whose counter was
40; the counter is 5 afterwards. -/
theorem load_next_id_witness :
    (Garden.mk [⟨39, [], [], [], 0, [], ⟨0⟩, ⟨0⟩, []⟩] 40).loadFromFile
        "PLANT|4|Fern|s|d|5|sun|7|3\nPLANT|2|Ivy|t|d|6|shade|0|0\n".toList =
      some (.ok ⟨[⟨4, "Fern".toList, "s".toList, "d".toList, 5, "sun".toList, ⟨7⟩, ⟨3⟩, []⟩,
        ⟨2, "Ivy".toList, "t".toList, "d".toList, 6, "shade".toList, ⟨0⟩, ⟨0⟩, []⟩], 5⟩) ∧
    (5 : Int) = max 1 (4 + 1) :=
  ⟨by decide,
    (load_next_id (Garden.mk [⟨39, [], [], [], 0, [], ⟨0⟩, ⟨0⟩, []⟩] 40)
      ⟨[⟨4, "Fern".toList, "s".toList, "d".toList, 5, "sun".toList, ⟨7⟩, ⟨3⟩, []⟩,
        ⟨2, "Ivy".toList, "t".toList, "d".toList, 6, "shade".toList, ⟨0⟩, ⟨0⟩, []⟩], 5⟩
      "PLANT|4|Fern|s|d|5|sun|7|3\nPLANT|2|Ivy|t|d|6|shade|0|0\n".toList (by decide)
      (by decide)).2
      ⟨4, "Fern".toList, "s".toList, "d".toList, 5, "sun".toList, ⟨7⟩, ⟨3⟩, []⟩ (by decide)
      (by decide)⟩

set_option maxRecDepth 100000 in
/-- Counterexample to C11 as stated: a file whose only plant has id -5 loads
with `next_id = 1`, not 1 + (-5); and a file whose only plant has id
2147483647 loads with `next_id = -2147483648`. -/
theorem load_next_id_counterexample :
    Garden.fresh.loadFromFile "PLANT|-5|Fern|s|d|5|sun|7|3\n".toList =
      some (.ok ⟨[⟨-5, "Fern".toList, "s".toList, "d".toList, 5, "sun".toList, ⟨7⟩, ⟨3⟩, []⟩],
        1⟩) ∧
    (1 : Int) ≠ 1 + -5 ∧
    Garden.fresh.loadFromFile "PLANT|2147483647|Fern|s|d|5|sun|7|3\n".toList =
      some (.ok ⟨[⟨2147483647, "Fern".toList, "s".toList, "d".toList, 5, "sun".toList, ⟨7⟩,
        ⟨3⟩, []⟩], -2147483648⟩) := by
  decide

/-! ## Uniqueness of ids -/

theorem pushHistoryAt_ids (i : Nat) (e : CareEvent) (ps : List Plant) :
    (pushHistoryAt i e ps).map Plant.id = ps.map Plant.id := by
  induction ps generalizing i with
  | nil => cases i <;> rfl
  | cons p ps ih =>
    cases i with
    | zero => rfl
    | succ i => simp [pushHistoryAt, ih]

theorem logEvent_ids (g : Garden) (id : Int) (e : CareEvent) :
    (g.logEvent id e).plants.map Plant.id = g.plants.map Plant.id ∧
    (g.logEvent id e).next_id = g.next_id := by
  unfold Garden.logEvent
  cases g.findPlant id with
  | none => exact ⟨rfl, rfl⟩
  | some i => exact ⟨pushHistoryAt_ids i e g.plants, rfl⟩

/-- What the guarded operations keep true: distinct ids, all below a counter
that fits `int`. -/
theorem reachableGuarded_inv (g : Garden) (h : ReachableGuarded g) :
    (g.plants.map Plant.id).Nodup ∧ (∀ p ∈ g.plants, p.id < g.next_id) ∧
      inIntRange g.next_id := by
  induction h with
  | fresh => exact ⟨by simp [Garden.fresh], by simp [Garden.fresh], by decide⟩
  | load g content g1 _ hload hnd hmax _ =>
    obtain ⟨hnext, hrange⟩ := loadFromFile_bump g g1 content hload
    obtain ⟨h1, h2, h3⟩ := bumpNext_spec g1.plants 1 (fun p hp => ⟨hrange p hp, hmax p hp⟩)
    rw [← hnext] at h1 h2 h3
    refine ⟨hnd, h2, ?_⟩
    rcases h3 with h3 | ⟨q, hq, h3⟩
    · rw [h3]
      decide
    · have hq1 := (hrange q hq).1
      have hq2 := (hrange q hq).2
      have hq3 := hmax q hq
      rw [h3]
      unfold inIntRange INT_MIN INT_MAX at *
      constructor <;> omega
  | add g p _ hmax ih =>
    obtain ⟨hnd, hlt, hrange⟩ := ih
    have hstep : wrap32 (g.next_id + 1) = g.next_id + 1 := by
      apply wrap32_of_inIntRange
      unfold inIntRange INT_MIN INT_MAX at *
      constructor <;> omega
    have hplants : (g.addPlant p).2.plants = g.plants ++ [{ p with id := g.next_id }] := rfl
    have hnext : (g.addPlant p).2.next_id = g.next_id + 1 := hstep
    refine ⟨?_, ?_, ?_⟩
    · rw [hplants, List.map_append, List.nodup_append]
      refine ⟨hnd, by simp, ?_⟩
      intro a ha hb
      simp only [List.map_cons, List.map_nil, List.mem_singleton] at hb
      obtain ⟨q, hq, rfl⟩ := List.mem_map.mp ha
      have := hlt q hq
      omega
    · intro q hq
      rw [hplants, List.mem_append] at hq
      rw [hnext]
      rcases hq with hq | hq
      · have := hlt q hq
        omega
      · rw [List.mem_singleton] at hq
        rw [hq]
        show g.next_id < g.next_id + 1
        omega
    · rw [hnext]
      unfold inIntRange INT_MIN INT_MAX at *
      constructor <;> omega
  | log g id e _ ih =>
    obtain ⟨hnd, hlt, hrange⟩ := ih
    obtain ⟨hids, hnext⟩ := logEvent_ids g id e
    refine ⟨by rw [hids]; exact hnd, ?_, by rw [hnext]; exact hrange⟩
    intro q hq
    have hmem : q.id ∈ (g.logEvent id e).plants.map Plant.id := List.mem_map_of_mem _ hq
    rw [hids] at hmem
    obtain ⟨q0, hq0, heq⟩ := List.mem_map.mp hmem
    rw [hnext, ← heq]
    exact hlt q0 hq0

/-- C12 (amended): in every garden reachable from the fresh store by any
sequence of `loadFromFile` (on file contents that load successfully into
plants with pairwise distinct ids, none of them 2147483647), `addPlant`
(called while `next_id` is not 2147483647) and history-append operations, no
two plants have the same id. -/
theorem reachable_ids_unique (g : Garden) (h : ReachableGuarded g) :
    (g.plants.map Plant.id).Nodup :=
  (reachableGuarded_inv g h).1

set_option maxRecDepth 100000 in
/-- Witness of C12: a load of ids 4 and 2, an `addPlant`, and an event logged
for id 2 give the ids 4, 2, 5. -/
theorem reachable_ids_unique_witness :
    ((((Garden.mk [⟨4, [], [], [], 5, [], ⟨7⟩, ⟨3⟩, []⟩, ⟨2, [], [], [], 6, [], ⟨0⟩, ⟨0⟩, []⟩]
        5).addPlant ⟨0, "Rose".toList, [], [], 0, [], ⟨0⟩, ⟨0⟩, []⟩).2.logEvent 2
          ⟨WATER, "2024-01-02".toList, []⟩).plants.map Plant.id) = [4, 2, 5] ∧
    ((((Garden.mk [⟨4, [], [], [], 5, [], ⟨7⟩, ⟨3⟩, []⟩, ⟨2, [], [], [], 6, [], ⟨0⟩, ⟨0⟩, []⟩]
        5).addPlant ⟨0, "Rose".toList, [], [], 0, [], ⟨0⟩, ⟨0⟩, []⟩).2.logEvent 2
          ⟨WATER, "2024-01-02".toList, []⟩).plants.map Plant.id).Nodup :=
  ⟨by decide,
    reachable_ids_unique _
      (ReachableGuarded.log _ 2 ⟨WATER, "2024-01-02".toList, []⟩
        (ReachableGuarded.add _ ⟨0, "Rose".toList, [], [], 0, [], ⟨0⟩, ⟨0⟩, []⟩
          (ReachableGuarded.load Garden.fresh "PLANT|4||||5||7|3\nPLANT|2||||6||0|0\n".toList
            (Garden.mk [⟨4, [], [], [], 5, [], ⟨7⟩, ⟨3⟩, []⟩,
              ⟨2, [], [], [], 6, [], ⟨0⟩, ⟨0⟩, []⟩] 5)
            ReachableGuarded.fresh (by decide) (by decide) (by decide))
          (by decide)))⟩

set_option maxRecDepth 100000 in
/-- Counterexample to C12 as stated: a file with two plant lines of id 1
loads successfully, so the garden holding both plants is reachable, and two
of its plants have the same id. -/
theorem reachable_ids_unique_counterexample :
    Reachable (Garden.mk [⟨1, "Fern".toList, [], [], 5, [], ⟨7⟩, ⟨3⟩, []⟩,
        ⟨1, "Ivy".toList, [], [], 6, [], ⟨0⟩, ⟨0⟩, []⟩] 2) ∧
    ¬ ((Garden.mk [⟨1, "Fern".toList, [], [], 5, [], ⟨7⟩, ⟨3⟩, []⟩,
        ⟨1, "Ivy".toList, [], [], 6, [], ⟨0⟩, ⟨0⟩, []⟩] 2).plants.map Plant.id).Nodup :=
  ⟨Reachable.load Garden.fresh "PLANT|1|Fern|||5||7|3\nPLANT|1|Ivy|||6||0|0\n".toList _
      Reachable.fresh (by decide),
    by decide⟩

/-! ## Loading what was saved from a loaded garden -/

theorem intToStr_last (i : Int) (pre : Str) : (pre ++ intToStr i).getLast? ≠ some '\r' := by
  obtain ⟨hne, hchars⟩ := intToStr_chars i
  intro h
  rw [List.getLast?_append] at h
  cases hl : (intToStr i).getLast? with
  | none => exact hne (List.getLast?_eq_none_iff.mp hl)
  | some c =>
    rw [hl] at h
    simp only [Option.or_some, Option.some.injEq] at h
    have hc := hchars c (List.mem_of_getLast?_eq_some hl)
    rw [h] at hc
    rcases hc with hc | hc
    · exact absurd hc (by decide)
    · exact absurd hc (by decide)

theorem plant_serialize_last (p : Plant) : p.serialize.getLast? ≠ some '\r' := by
  unfold Plant.serialize Schedule.serialize
  exact intToStr_last _ _

theorem event_serialize_last (e : CareEvent) (h : e.notes.getLast? ≠ some '\r') :
    e.serialize.getLast? ≠ some '\r' := by
  unfold CareEvent.serialize
  rw [List.getLast?_append]
  cases hl : e.notes.getLast? with
  | none =>
    rw [List.getLast?_concat]
    simp
  | some c =>
    rw [hl] at h
    simpa using h

theorem plant_serialize_no_lf (p : Plant) (h : p.reloadable) : '\n' ∉ p.serialize :=
  plant_serialize_not_mem p '\n' (by decide) (by decide) (by decide) (by decide)
    h.1.2 h.2.1.2 h.2.2.1.2 h.2.2.2.1.2

theorem event_serialize_no_lf (e : CareEvent) (h : e.reloadable) : '\n' ∉ e.serialize :=
  event_serialize_not_mem e '\n' (by decide) (by decide) h.1.2 h.2.1.2 h.2.2.1

theorem headerDecodes_of_reloadable (p : Plant) (hint : p.intsInRange) (h : p.reloadable) :
    headerDecodes p.serialize = true ∧ headerPlant p.serialize = { p with history := [] } := by
  unfold headerDecodes headerPlant
  rw [plant_deserialize_serialize_header p [] hint h.1.1 h.2.1.1 h.2.2.1.1 h.2.2.2.1.1]
  exact ⟨rfl, rfl⟩

/-- The record written for a reloadable plant is well formed. -/
theorem record_wellFormed_of_reloadable (p : Plant) (hint : p.intsInRange)
    (h : p.reloadable) : p.record.wellFormed := by
  have hs : stripCR p.serialize = p.serialize := stripCR_of_last_ne _ (plant_serialize_last p)
  refine ⟨plant_serialize_no_lf p h, ?_, ?_, ?_⟩
  · show isPlantLine (stripCR p.serialize) = true
    rw [hs]
    exact isPlantLine_serialize p
  · show headerDecodes (stripCR p.serialize) = true
    rw [hs]
    exact (headerDecodes_of_reloadable p hint h).1
  · intro l hl
    obtain ⟨e, he, rfl⟩ := List.mem_map.mp hl
    have hc := h.2.2.2.2 e he
    rw [stripCR_of_last_ne _ (event_serialize_last e hc.2.2.2)]
    exact ⟨event_serialize_no_lf e hc, isEventLine_serialize e⟩

/-- The record written for a reloadable plant decodes to the plant. -/
theorem record_decode_of_reloadable (p : Plant) (hint : p.intsInRange) (h : p.reloadable) :
    p.record.decode = p := by
  have hs : stripCR p.serialize = p.serialize := stripCR_of_last_ne _ (plant_serialize_last p)
  have hall : ∀ e ∈ p.history, CareEvent.deserialize (stripCR e.serialize) = e := by
    intro e he
    have hc := h.2.2.2.2 e he
    rw [stripCR_of_last_ne _ (event_serialize_last e hc.2.2.2)]
    exact event_deserialize_serialize e hc.1.1 hc.2.1.1 hc.2.2.1
  have hev : (p.history.map CareEvent.serialize).map
      (fun l => CareEvent.deserialize (stripCR l)) = p.history := by
    rw [List.map_map]
    have hcongr : p.history.map ((fun l => CareEvent.deserialize (stripCR l)) ∘
        CareEvent.serialize) = p.history.map (fun e => e) :=
      List.map_congr_left (fun e he => hall e he)
    rw [hcongr]
    simp
  unfold Record.decode Plant.record
  simp only [hs, (headerDecodes_of_reloadable p hint h).2, hev]

/-- Loading what `saveToFile` writes for reloadable plants gives the plants
back. -/
theorem load_save_of_reloadable (g g0 : Garden) (hint : ∀ p ∈ g.plants, p.intsInRange)
    (hre : ∀ p ∈ g.plants, p.reloadable) :
    ∃ n, g0.loadFromFile g.saveToFile = some (.ok ⟨g.plants, n⟩) := by
  have hwf : ∀ r ∈ g.plants.map Plant.record, r.wellFormed := by
    intro r hr
    obtain ⟨p, hp, rfl⟩ := List.mem_map.mp hr
    exact record_wellFormed_of_reloadable p (hint p hp) (hre p hp)
  obtain ⟨n, hn⟩ := loadFromFile_fileOf g0 (g.plants.map Plant.record) hwf
  have hdec : (g.plants.map Plant.record).map Record.decode = g.plants := by
    rw [List.map_map]
    have hcongr : g.plants.map (Record.decode ∘ Plant.record) = g.plants.map (fun p => p) :=
      List.map_congr_left
        (fun p hp => record_decode_of_reloadable p (hint p hp) (hre p hp))
    rw [hcongr]
    simp
  refine ⟨n, ?_⟩
  rw [Garden.saveToFile, writePlants_eq, hn, hdec]

/-! ## What the decoder puts into the fields -/

/-- A token read up to `d`: it holds no `d` and only characters of the line,
as does whatever token was held before, and the stream keeps only characters
of the line. -/
theorem getline_token (line : Str) (d : Char) (ss : IStream) (cur : Str)
    (hss : ∀ c ∈ ss.buf, c ∈ line) (hcur : d ∉ cur ∧ ∀ c ∈ cur, c ∈ line) :
    (d ∉ (getline ss cur d).2 ∧ ∀ c ∈ (getline ss cur d).2, c ∈ line) ∧
      ∀ c ∈ (getline ss cur d).1.buf, c ∈ line := by
  unfold getline
  cases hg : ss.good
  · simp only [Bool.false_eq_true, if_false]
    exact ⟨hcur, hss⟩
  · simp only [if_true]
    rw [List.span_eq_take_drop]
    have htake : d ∉ ss.buf.takeWhile (fun c => c != d) := by
      intro hmem
      have := List.mem_takeWhile_imp hmem
      simp at this
    have htake2 : ∀ c ∈ ss.buf.takeWhile (fun c => c != d), c ∈ line := fun c hc =>
      hss c (( List.takeWhile_prefix _).subset hc)
    have hdrop : ∀ c ∈ ss.buf.dropWhile (fun c => c != d), c ∈ line := fun c hc =>
      hss c ((List.dropWhile_suffix _).subset hc)
    cases hdw : ss.buf.dropWhile (fun c => c != d) with
    | nil => exact ⟨⟨htake, htake2⟩, by simp⟩
    | cons x rest =>
      rw [hdw] at hdrop
      exact ⟨⟨htake, htake2⟩, fun c hc => hdrop c (List.mem_cons_of_mem _ hc)⟩

/-- What is left in the stream after a read is an end of what was there
before. -/
theorem getline_suffix (d : Char) (ss : IStream) (cur : Str) :
    (getline ss cur d).1.buf <:+ ss.buf := by
  unfold getline
  cases hg : ss.good
  · simp only [Bool.false_eq_true, if_false]
    exact List.suffix_refl _
  · simp only [if_true]
    rw [List.span_eq_take_drop]
    have hdrop := List.dropWhile_suffix (l := ss.buf) (fun c => c != d)
    cases hdw : ss.buf.dropWhile (fun c => c != d) with
    | nil => exact List.nil_suffix
    | cons x rest =>
      rw [hdw] at hdrop
      exact (List.suffix_cons x rest).trans hdrop

/-- A read up to a delimiter the stream does not hold, into an empty string:
the string stays empty or receives all that the stream holds. -/
theorem getline_rest (d : Char) (ss : IStream) (h : d ∉ ss.buf) :
    (getline ss [] d).2 = [] ∨ (getline ss [] d).2 = ss.buf := by
  unfold getline
  cases hg : ss.good
  · exact Or.inl rfl
  · simp only [if_true]
    rw [span_no_delim d ss.buf h]
    exact Or.inr rfl

theorem schedule_deserialize_range (s : Str) :
    inIntRange (Schedule.deserialize s).interval_days := by
  unfold Schedule.deserialize
  cases h : stoi s with
  | error e =>
    show inIntRange 0
    decide
  | ok v => exact stoi_range s v h

/-- The plant decoded from a line without line feed has `int` members in
range and field texts in its four text fields. -/
theorem plant_deserialize_fields_ok (line : Str) (L : List Str) (p : Plant)
    (rest : List Str) (h : Plant.deserialize line L = .ok (p, rest)) (hlf : '\n' ∉ line) :
    p.intsInRange ∧ fieldText p.name ∧ fieldText p.species ∧ fieldText p.planted ∧
      fieldText p.sunlight := by
  have hmem : ∀ t : Str, (∀ c ∈ t, c ∈ line) → '\n' ∉ t := fun t ht hc => hlf (ht _ hc)
  have s0 : ∀ c ∈ (IStream.ofStr line).buf, c ∈ line := fun c hc => hc
  have t0 : '|' ∉ ([] : Str) ∧ ∀ c ∈ ([] : Str), c ∈ line := ⟨by simp, by simp⟩
  have h1 := getline_token line '|' _ [] s0 t0
  have h2 := getline_token line '|' _ _ h1.2 h1.1
  have h3 := getline_token line '|' _ [] h2.2 t0
  have h4 := getline_token line '|' _ [] h3.2 t0
  have h5 := getline_token line '|' _ [] h4.2 t0
  have h6 := getline_token line '|' _ _ h5.2 h2.1
  have h7 := getline_token line '|' _ [] h6.2 t0
  unfold Plant.deserialize at h
  simp only at h
  split at h
  · cases h
  · next id hid =>
    split at h
    · cases h
    · next pot hpot =>
      simp only [Except.ok.injEq, Prod.mk.injEq] at h
      rw [← h.1]
      exact ⟨⟨stoi_range _ _ hid, stoi_range _ _ hpot, schedule_deserialize_range _,
          schedule_deserialize_range _⟩,
        ⟨h3.1.1, hmem _ h3.1.2⟩, ⟨h4.1.1, hmem _ h4.1.2⟩, ⟨h5.1.1, hmem _ h5.1.2⟩,
        ⟨h7.1.1, hmem _ h7.1.2⟩⟩

/-- The event decoded from a line without line feed that does not end in a
carriage return is reloadable. -/
theorem event_deserialize_reloadable (l : Str) (hlf : '\n' ∉ l)
    (hlast : l.getLast? ≠ some '\r') : (CareEvent.deserialize l).reloadable := by
  have hmem : ∀ t : Str, (∀ c ∈ t, c ∈ l) → '\n' ∉ t := fun t ht hc => hlf (ht _ hc)
  have s0 : ∀ c ∈ (IStream.ofStr l).buf, c ∈ l := fun c hc => hc
  have t0 : '|' ∉ ([] : Str) ∧ ∀ c ∈ ([] : Str), c ∈ l := ⟨by simp, by simp⟩
  have h1 := getline_token l '|' _ [] s0 t0
  have h2 := getline_token l '|' _ [] h1.2 t0
  have h3 := getline_token l '|' _ [] h2.2 t0
  have hsuf : (getline (getline (getline (IStream.ofStr l) [] '|').1 [] '|').1 [] '|').1.buf
      <:+ l :=
    ((getline_suffix '|' _ []).trans (getline_suffix '|' _ [])).trans
      (getline_suffix '|' (IStream.ofStr l) [])
  have hnotes := getline_rest '\n'
    (getline (getline (getline (IStream.ofStr l) [] '|').1 [] '|').1 [] '|').1
    (fun hc => hlf (hsuf.subset hc))
  refine ⟨⟨h2.1.1, hmem _ h2.1.2⟩, ⟨h3.1.1, hmem _ h3.1.2⟩, ?_, ?_⟩
  · show '\n' ∉ (getline
      (getline (getline (getline (IStream.ofStr l) [] '|').1 [] '|').1 [] '|').1 [] '\n').2
    rcases hnotes with hn | hn
    · rw [hn]
      simp
    · rw [hn]
      exact fun hc => hlf (hsuf.subset hc)
  · show (getline
      (getline (getline (getline (IStream.ofStr l) [] '|').1 [] '|').1 [] '|').1 [] '\n').2.getLast?
        ≠ some '\r'
    rcases hnotes with hn | hn
    · rw [hn]
      simp
    · rw [hn]
      intro hc
      obtain ⟨pre, hpre⟩ := hsuf
      apply hlast
      rw [← hpre, List.getLast?_append, hc]
      rfl

theorem stripCR_no_lf (l : Str) (h : '\n' ∉ l) : '\n' ∉ stripCR l :=
  fun hc => h ((stripCR_initial l).subset hc)

/-- The plant of a well-formed record none of whose event lines ends in two
carriage returns has `int` members in range and is reloadable. -/
theorem record_decode_reloadable (r : Record) (hwf : r.wellFormed)
    (hcr : ∀ l ∈ r.events, (stripCR l).getLast? ≠ some '\r') :
    r.decode.intsInRange ∧ r.decode.reloadable := by
  obtain ⟨hlf, _, hdec, hev⟩ := hwf
  have hfields : (headerPlant (stripCR r.header)).intsInRange ∧
      fieldText (headerPlant (stripCR r.header)).name ∧
      fieldText (headerPlant (stripCR r.header)).species ∧
      fieldText (headerPlant (stripCR r.header)).planted ∧
      fieldText (headerPlant (stripCR r.header)).sunlight := by
    unfold headerDecodes at hdec
    unfold headerPlant
    cases hd : Plant.deserialize (stripCR r.header) [] with
    | error e =>
      rw [hd] at hdec
      cases hdec
    | ok pr =>
      obtain ⟨p0, r0⟩ := pr
      exact plant_deserialize_fields_ok _ _ p0 r0 hd (stripCR_no_lf _ hlf)
  obtain ⟨hint, h1, h2, h3, h4⟩ := hfields
  refine ⟨hint, h1, h2, h3, h4, ?_⟩
  intro e he
  obtain ⟨l, hl, rfl⟩ := List.mem_map.mp he
  exact event_deserialize_reloadable (stripCR l) (stripCR_no_lf _ (hev l hl).1) (hcr l hl)

/-- C13 (amended): for every well-formed file `f` in the persisted layout
(plant header lines that decode, each followed by zero or more event lines)
in which no event line ends in two carriage returns, `load f` returns, and
saving the loaded garden (once or twice: a save does not change the garden,
so the second save writes the same file again) and loading the saved file
yields the same `plants` sequence as `load f`: no plant, no field and no
history entry changes. -/
theorem save_load_idempotent (g0 : Garden) (records : List Record)
    (hwf : ∀ r ∈ records, r.wellFormed)
    (hcr : ∀ r ∈ records, ∀ l ∈ r.events, (stripCR l).getLast? ≠ some '\r') :
    ∃ g g1, g0.loadFromFile (fileOf records) = some (.ok g) ∧
      g.loadFromFile g.saveToFile = some (.ok g1) ∧ g1.plants = g.plants := by
  obtain ⟨n, hn⟩ := loadFromFile_fileOf g0 records hwf
  have hall : ∀ p ∈ records.map Record.decode, p.intsInRange ∧ p.reloadable := by
    intro p hp
    obtain ⟨r, hr, rfl⟩ := List.mem_map.mp hp
    exact record_decode_reloadable r (hwf r hr) (hcr r hr)
  obtain ⟨m, hm⟩ := load_save_of_reloadable ⟨records.map Record.decode, n⟩
    ⟨records.map Record.decode, n⟩ (fun p hp => (hall p hp).1) (fun p hp => (hall p hp).2)
  exact ⟨_, _, hn, hm, rfl⟩

set_option maxRecDepth 100000 in
/-- Witness of C13: a file with CRLF line ends, a padded id, an interval with
a unit and a non-numeric interval; what is loaded from it is what is loaded
from its saved form. -/
theorem save_load_idempotent_witness :
    Garden.fresh.loadFromFile (fileOf [⟨"PLANT|007|Fern|s|2024-01-01|5|sun|7days|x\r".toList,
        ["EVENT|water|2024-01-02|a|b\r".toList, "EVENT|water".toList]⟩]) =
      some (.ok ⟨[⟨7, "Fern".toList, "s".toList, "2024-01-01".toList, 5, "sun".toList, ⟨7⟩, ⟨0⟩,
        [⟨"water".toList, "2024-01-02".toList, "a|b".toList⟩, ⟨"water".toList, [], []⟩]⟩], 8⟩) ∧
    (Garden.mk [⟨7, "Fern".toList, "s".toList, "2024-01-01".toList, 5, "sun".toList, ⟨7⟩, ⟨0⟩,
        [⟨"water".toList, "2024-01-02".toList, "a|b".toList⟩, ⟨"water".toList, [], []⟩]⟩]
        8).saveToFile =
      "PLANT|7|Fern|s|2024-01-01|5|sun|7|0\nEVENT|water|2024-01-02|a|b\nEVENT|water||\n".toList ∧
    ∃ g g1, Garden.fresh.loadFromFile
        (fileOf [⟨"PLANT|007|Fern|s|2024-01-01|5|sun|7days|x\r".toList,
          ["EVENT|water|2024-01-02|a|b\r".toList, "EVENT|water".toList]⟩]) = some (.ok g) ∧
      g.loadFromFile g.saveToFile = some (.ok g1) ∧ g1.plants = g.plants :=
  ⟨by decide, by decide, save_load_idempotent Garden.fresh _ (by decide) (by decide)⟩

set_option maxRecDepth 100000 in
/-- Counterexample to C13 as stated: a plant line with nine fields and
integer numbers, followed by an event line that ends in two carriage
returns. Loading strips one of them, so the notes end in a carriage return;
saving writes it at the end of the line, and the next load strips it. -/
theorem save_load_idempotent_counterexample :
    Garden.fresh.loadFromFile
        "PLANT|1|Fern|s|2024-01-01|5|sun|7|3\nEVENT|water|2024-01-02|note\r\r\n".toList =
      some (.ok ⟨[⟨1, "Fern".toList, "s".toList, "2024-01-01".toList, 5, "sun".toList, ⟨7⟩, ⟨3⟩,
        [⟨"water".toList, "2024-01-02".toList, "note\r".toList⟩]⟩], 2⟩) ∧
    (Garden.mk [⟨1, "Fern".toList, "s".toList, "2024-01-01".toList, 5, "sun".toList, ⟨7⟩, ⟨3⟩,
        [⟨"water".toList, "2024-01-02".toList, "note\r".toList⟩]⟩] 2).saveToFile =
      "PLANT|1|Fern|s|2024-01-01|5|sun|7|3\nEVENT|water|2024-01-02|note\r\n".toList ∧
    Garden.fresh.loadFromFile
        (Garden.mk [⟨1, "Fern".toList, "s".toList, "2024-01-01".toList, 5, "sun".toList, ⟨7⟩,
          ⟨3⟩, [⟨"water".toList, "2024-01-02".toList, "note\r".toList⟩]⟩] 2).saveToFile =
      some (.ok ⟨[⟨1, "Fern".toList, "s".toList, "2024-01-01".toList, 5, "sun".toList, ⟨7⟩, ⟨3⟩,
        [⟨"water".toList, "2024-01-02".toList, "note".toList⟩]⟩], 2⟩) ∧
    (Garden.mk [⟨1, "Fern".toList, "s".toList, "2024-01-01".toList, 5, "sun".toList, ⟨7⟩, ⟨3⟩,
        [⟨"water".toList, "2024-01-02".toList, "note".toList⟩]⟩] 2).plants ≠
      (Garden.mk [⟨1, "Fern".toList, "s".toList, "2024-01-01".toList, 5, "sun".toList, ⟨7⟩, ⟨3⟩,
        [⟨"water".toList, "2024-01-02".toList, "note\r".toList⟩]⟩] 2).plants := by
  decide

/-! ## Date arithmetic -/

/-- C16: `add_days` at the failing input `("2024-03-01", 24856)`, in the UTC
reference library. The product `days * 24 * 3600` is computed in `int` and
leaves its range (24856 * 86400 = 2147558400), so the offset added to the
time is -2147408896 seconds and the result is `"1956-02-12"`, while the date
24856 days after 2024-03-01 is 2092-03-20. One day less, 24855, still gives
the calendar date, as does the spec's example `("2024-01-10", 5)`. -/
theorem add_days_int_overflow :
    wrap32 (wrap32 (24856 * 24) * 3600) = -2147408896 ∧
    add_days utcLib "2024-03-01".toList 24856 = "1956-02-12".toList ∧
    utcStrftime (civilFromDays (daysFromCivil 2024 3 1 + 24856)) = "2092-03-20".toList ∧
    add_days utcLib "2024-03-01".toList 24855 = "2092-03-19".toList ∧
    add_days utcLib "2024-01-10".toList 5 = "2024-01-15".toList := by
  decide

end SmartGarden
